import Mathlib

/-!
# Verification of the SES email forwarder (`src/index.mjs`)

A shallow embedding of the forwarder's logic layer:

* recipient resolution (`transformRecipients`),
* event validation (`parseEvent`),
* the header rewrite (`processMessage`), including faithful models of the
  JavaScript regular-expression operations it performs,
* the step pipeline of `handler` / `Promise.series`.

Strings are modelled as `List Char`.  JavaScript regular-expression
behaviour is modelled for the ASCII fragment the program manipulates:
`.` matches any character except `'\n'`/`'\r'`, `\s` matches the six
ASCII whitespace characters, and `toLowerCase` lowers ASCII letters.
-/

namespace Fwd

/-- A JavaScript string, modelled as a list of characters. -/
abbrev Str := List Char

/-- ASCII `toLowerCase` on one character. -/
def lowerChar (c : Char) : Char :=
  if 'A' ≤ c ∧ c ≤ 'Z' then Char.ofNat (c.toNat + 32) else c

/-- `String.prototype.toLowerCase` (ASCII fragment). -/
def lowerStr (s : Str) : Str := s.map lowerChar

/-- Line-terminator characters: the characters JavaScript `.` does not match. -/
def isTermChar (c : Char) : Bool := c == '\n' || c == '\r'

/-- JavaScript `\s` (ASCII fragment): space, tab, newline, carriage return,
vertical tab, form feed. -/
def jsWs (c : Char) : Bool :=
  c == ' ' || c == '\t' || c == '\n' || c == '\r' ||
  c == Char.ofNat 11 || c == Char.ofNat 12

/-! ## Recipient resolution (`transformRecipients`, src/index.mjs:106-165) -/

/-- Scan, after a `'+'`, for the nearest `'@'` with no line terminator in
between: the lazy `.*?@` of the regex `/\+.*?@/`.  Returns the remainder
after the `'@'` when it matches. -/
def plusSpan : Str → Option Str
  | [] => none
  | c :: cs =>
    if c == '@' then some cs
    else if isTermChar c then none
    else plusSpan cs

/-- `origEmailKey.replace(/\+.*?@/, "@")` (src/index.mjs:112): remove the
first `+…` segment up to the following `'@'`. -/
def replacePlus : Str → Str
  | [] => []
  | c :: cs =>
    if c == '+' then
      match plusSpan cs with
      | some rest => '@' :: rest
      | none => c :: replacePlus cs
    else c :: replacePlus cs

/-- The forwarding rule table: `config.forwardMapping`, a JavaScript object
mapping a pattern key to a list of destination addresses. -/
abbrev RuleTable := List (Str × List Str)

/-- `forwardMapping.hasOwnProperty(key)`. -/
def hasKey (m : RuleTable) (k : Str) : Bool := m.any (fun e => e.1 == k)

/-- `forwardMapping[key]` (defaulting to `[]`, only ever used under
`hasKey`). -/
def getKey (m : RuleTable) (k : Str) : List Str :=
  ((m.find? (fun e => e.1 == k)).map (fun e => e.2)).getD []

/-- Index of the last `'@'` in a key (`origEmailKey.lastIndexOf("@")`),
as an `Option`. -/
def lastAtIdx (l : Str) : Option Nat :=
  (l.reverse.findIdx? (fun c => c == '@')).map (fun i => l.length - 1 - i)

/-- The lookup chain of `transformRecipients` (src/index.mjs:114-148):
full key first; otherwise the domain suffix (when the key contains `'@'`),
then the local part, then the catch-all key `"@"`. -/
def lookupDest (m : RuleTable) (key : Str) : Option (List Str) :=
  if hasKey m key then some (getKey m key)
  else
    match lastAtIdx key with
    | none =>
      -- no "@": origEmailUser is the whole key, origEmailDomain undefined
      let origEmailUser := key
      if origEmailUser ≠ [] ∧ hasKey m origEmailUser then
        some (getKey m origEmailUser)
      else if hasKey m ['@'] then some (getKey m ['@'])
      else none
    | some pos =>
      let origEmailDomain := key.drop pos
      let origEmailUser := key.take pos
      if origEmailDomain ≠ [] ∧ hasKey m origEmailDomain then
        some (getKey m origEmailDomain)
      else if origEmailUser ≠ [] ∧ hasKey m origEmailUser then
        some (getKey m origEmailUser)
      else if hasKey m ['@'] then some (getKey m ['@'])
      else none

/-- The local part of a key: the portion before the (last) `'@'`, the
whole key when it has none. -/
def userPart (key : Str) : Str :=
  match lastAtIdx key with
  | none => key
  | some pos => key.take pos

/-- The domain suffix of a key, `'@'` included, when the key contains
`'@'`. -/
def domainPart (key : Str) : Option Str :=
  (lastAtIdx key).map (fun pos => key.drop pos)

/-- The lookup precedence exactly as the specification words it (spec
§4.2 step 3): full address, then domain suffix when the address contains
`'@'`, then the local part, then the catch-all — each tried unguarded,
stopping at the first key present in the table.  Stated separately from
`lookupDest` (the code's chain) so the two can be compared. -/
def lookupSpec (m : RuleTable) (key : Str) : Option (List Str) :=
  if hasKey m key then some (getKey m key)
  else
    match domainPart key with
    | some dom =>
      if hasKey m dom then some (getKey m dom)
      else if hasKey m (userPart key) then some (getKey m (userPart key))
      else if hasKey m ['@'] then some (getKey m ['@'])
      else none
    | none =>
      if hasKey m (userPart key) then some (getKey m (userPart key))
      else if hasKey m ['@'] then some (getKey m ['@'])
      else none

/-- The forwarder configuration (the shape of `defaultConfig`).
Absent string options are modelled as `[]`, matching JavaScript falsiness
of `undefined` and `""`. -/
structure Config where
  fromEmail : Str
  subjectPrefix : Str
  toEmail : Str
  allowPlusSign : Bool
  forwardMapping : RuleTable
  deriving DecidableEq

/-- The key a recipient is looked up under: lowercased, and with the
`+…` segment stripped when `allowPlusSign` is set
(src/index.mjs:110-113). -/
def normKey (cfg : Config) (origEmail : Str) : Str :=
  let key := lowerStr origEmail
  if cfg.allowPlusSign then replacePlus key else key

/-- State of the `forEach` loop of `transformRecipients`:
the accumulated `newRecipients` and the last-written
`data.originalRecipient`. -/
structure ResolveState where
  newRecipients : List Str
  originalRecipient : Option Str
  deriving DecidableEq

/-- One iteration of the `forEach` loop (src/index.mjs:109-150): on any
rule match, append the destinations and overwrite `originalRecipient`
with the (unnormalized) current recipient. -/
def resolveStep (cfg : Config) (st : ResolveState) (origEmail : Str) : ResolveState :=
  match lookupDest cfg.forwardMapping (normKey cfg origEmail) with
  | some dests => ⟨st.newRecipients ++ dests, some origEmail⟩
  | none => st

/-- The whole loop of `transformRecipients` over the recipient list. -/
def resolveAll (cfg : Config) (recipients : List Str) : ResolveState :=
  recipients.foldl (resolveStep cfg) ⟨[], none⟩

/-- Whether a recipient produces any rule match. -/
def matchesRule (cfg : Config) (origEmail : Str) : Bool :=
  (lookupDest cfg.forwardMapping (normKey cfg origEmail)).isSome

/-! ## Header/body split (`processMessage`, src/index.mjs:242-244)

`data.emailData.match(/^((?:.+\r?\n)*)(\r?\n(?:.*\s+)*)/m)`. -/

/-- The maximal run of non-terminator characters (`.+` / `.*`). -/
def takeRun (l : Str) : Str := l.takeWhile (fun c => !isTermChar c)

/-- Remainder after `takeRun`. -/
def dropRun (l : Str) : Str := l.dropWhile (fun c => !isTermChar c)

/-- Match `\r?\n` at the head: returns the terminator and the rest. -/
def termAt (l : Str) : Option (Str × Str) :=
  match l with
  | [] => none
  | c :: cs =>
    if c = '\n' then some (['\n'], cs)
    else if c = '\r' then
      match cs with
      | c2 :: cs2 => if c2 = '\n' then some (['\r', '\n'], cs2) else none
      | [] => none
    else none

theorem dropRun_length_le (l : Str) : (dropRun l).length ≤ l.length :=
  (List.dropWhile_sublist _).length_le

theorem termAt_length_lt {l t r : Str} (h : termAt l = some (t, r)) :
    r.length < l.length := by
  match l with
  | [] => simp [termAt] at h
  | c :: cs =>
    simp only [termAt] at h
    split at h
    · simp only [Option.some.injEq, Prod.mk.injEq] at h
      obtain ⟨-, rfl⟩ := h
      simp
    · split at h
      · match cs with
        | [] => simp at h
        | c2 :: cs2 =>
          simp only at h
          split at h
          · simp only [Option.some.injEq, Prod.mk.injEq] at h
            obtain ⟨-, rfl⟩ := h
            simp
            omega
          · simp at h
      · simp at h

/-- The maximal prefix of a string matched by `(?:.*\s+)*`: everything up
to and including the last whitespace character (empty when there is no
whitespace). -/
def takeThroughLastWs (l : Str) : Str :=
  (l.reverse.dropWhile (fun c => !jsWs c)).reverse

/-- One candidate of the split regex, anchored at a line start: consume
non-empty `.+\r?\n` lines until a blank line is reached.  Returns
(group-1 text, the blank line's terminator, the rest after the blank
line), or `none` when this candidate fails. -/
def splitCandF : Nat → Str → Option (Str × Str × Str)
  | 0, _ => none
  | fuel + 1, l =>
    match termAt l with
    | some (t, r) => some ([], t, r)
    | none =>
      let run := takeRun l
      if run = [] then none
      else
        match termAt (dropRun l) with
        | some (t, r) =>
          match splitCandF fuel r with
          | some (g1, bt, rest) => some (run ++ t ++ g1, bt, rest)
          | none => none
        | none => none

/-- Entry point: the fuel `l.length + 1` bounds the recursion depth and,
since every recursive call strictly shrinks the string, never runs out. -/
def splitCand (l : Str) : Option (Str × Str × Str) := splitCandF (l.length + 1) l

/-- Remainder after the first LineTerminator character, if any: the next
`^` position of a multiline regex.  ECMA-262 `^`/m asserts after any
LineTerminator — `'\n'` or `'\r'` (so it also matches between the two
characters of a `"\r\n"` pair). -/
def afterTerm (l : Str) : Option Str :=
  match l with
  | [] => none
  | c :: cs => if c = '\n' ∨ c = '\r' then some cs else afterTerm cs

theorem afterTerm_length_lt {l r : Str} (h : afterTerm l = some r) :
    r.length < l.length := by
  induction l with
  | nil => simp [afterTerm] at h
  | cons c cs ih =>
    simp only [afterTerm] at h
    split at h
    · cases h; simpa using Nat.lt_succ_self _
    · exact Nat.lt_trans (ih h) (Nat.lt_succ_self _)

/-- Leftmost match of the split regex: try the candidate at the start of
the string and then at each position after a LineTerminator character
(`'\n'` or `'\r'`). -/
def splitScanF : Nat → Str → Option (Str × Str × Str)
  | 0, _ => none
  | fuel + 1, l =>
    match splitCand l with
    | some res => some res
    | none =>
      match afterTerm l with
      | some r => splitScanF fuel r
      | none => none

def splitScan (l : Str) : Option (Str × Str × Str) := splitScanF (l.length + 1) l

/-- The header/body split of `processMessage` (src/index.mjs:242-244),
including the JavaScript truthiness fallbacks on `match[1]` and
`match[2]`. -/
def splitMessage (l : Str) : Str × Str :=
  match splitScan l with
  | none => (l, [])
  | some (g1, bt, rest) =>
    let g2 := bt ++ takeThroughLastWs rest
    (if g1 = [] then l else g1, g2)

/-! ## Header-line scanning primitives -/

/-- Case-insensitive prefix test: `pat` (given lowercase) against the
lowercased input. -/
def ciStarts : Str → Str → Bool
  | [], _ => true
  | _ :: _, [] => false
  | p :: ps, c :: cs => p == lowerChar c && ciStarts ps cs

/-- The `^`-positions sitting after a `'\n'`: the whole string and the
suffix after every `'\n'`.  ECMA-262 multiline `^` also asserts after a
`'\r'`; that position always sits immediately before the `'\n'` of a
`"\r\n"` pair, where no pattern beginning with a letter can match, so
the header-name scans are over these positions (the full enumeration is
`lineStartsJs` below). -/
def lineStartsAfter : Str → List Str
  | [] => []
  | c :: cs => if c = '\n' then cs :: lineStartsAfter cs else lineStartsAfter cs

def lineStarts (l : Str) : List Str := l :: lineStartsAfter l

/-- The suffixes after every LineTerminator character (`'\n'` or
`'\r'`): together with the whole string, all ECMA-262 multiline
`^`-positions. -/
def lineStartsAfterCR : Str → List Str
  | [] => []
  | c :: cs =>
    if c = '\n' ∨ c = '\r' then cs :: lineStartsAfterCR cs else lineStartsAfterCR cs

/-- All multiline `^`-positions of a string, CR positions included. -/
def lineStartsJs (l : Str) : List Str := l :: lineStartsAfterCR l

/-- Whether the split regex finds a blank-line boundary: a multiline
`^`-position (CR positions included) where a `\r?\n` terminator matches
at once.  In particular any `"\r\n"` pair anywhere yields a boundary
between its two characters. -/
def hasBlankLine (l : Str) : Bool := (lineStartsJs l).any (fun r => (termAt r).isSome)

/-- `[\t ]?`: consume one optional tab or space. -/
def optWs (l : Str) : Str :=
  match l with
  | [] => []
  | c :: cs => if c = '\t' ∨ c = ' ' then cs else l

theorem optWs_length_le (l : Str) : (optWs l).length ≤ l.length := by
  match l with
  | [] => simp [optWs]
  | c :: cs =>
    simp only [optWs]
    split <;> simp

/-- `/^reply-to:[\t ]?/im.test(header)` (src/index.mjs:247). -/
def hasReplyTo (l : Str) : Bool :=
  (lineStarts l).any (ciStarts ("reply-to:".data))

/-- The maximal whitespace run (`\s+`, greedy). -/
def wsRun (l : Str) : Str := l.takeWhile jsWs

/-! ## From-header extraction (src/index.mjs:248)

`header.match(/^from:[\t ]?(.*(?:\r?\n\s+.*)*\r?\n)/im)`.  The group's
trailing `\r?\n` forces backtracking inside the `\s+` of the folded-line
iterations; `extrTail` matches `(?:\r?\n\s+.*)*\r?\n` with exactly the
preference order of a backtracking engine: iterations are preferred over
the final terminator, and within an iteration longer `\s+` runs are
preferred. -/

theorem wsRun_length_le (l : Str) : (wsRun l).length ≤ l.length :=
  (List.takeWhile_sublist _).length_le

/-- Try one `\s+.*` iteration of `(?:\r?\n\s+.*)*\r?\n` followed by the
remaining tail (`tail`), with the `\s+` length running from `i` down to
`1`: the backtracking preference order of the engine. -/
def extrIters (tail : Str → Option (Str × Str)) (m1 : Str) : Nat → Option (Str × Str)
  | 0 => none
  | i + 1 =>
    let m2 := m1.drop (i + 1)
    let run := takeRun m2
    match tail (dropRun m2) with
    | some (cons, rest) => some (m1.take (i + 1) ++ run ++ cons, rest)
    | none => extrIters tail m1 i

/-- Match `(?:\r?\n\s+.*)*\r?\n`, returning (consumed, rest):
iterations are preferred over the final terminator, and within an
iteration longer `\s+` runs are preferred. -/
def extrTailF : Nat → Str → Option (Str × Str)
  | 0, _ => none
  | fuel + 1, l =>
    match termAt l with
    | none => none
    | some (t, m1) =>
      match extrIters (fun x => extrTailF fuel x) m1 (wsRun m1).length with
      | some (cons, rest) => some (t ++ cons, rest)
      | none => some (t, m1)

def extrTail (l : Str) : Option (Str × Str) := extrTailF (l.length + 1) l

/-- Try the From extraction at one line start:
`from:[\t ]?(.*(?:\r?\n\s+.*)*\r?\n)`; returns the captured group. -/
def extrFromAt (l : Str) : Option Str :=
  if ciStarts ("from:".data) l then
    let afterWs := optWs (l.drop 5)
    match extrTail (dropRun afterWs) with
    | some (cons, _) => some (takeRun afterWs ++ cons)
    | none => none
  else none

/-- The `from` value of src/index.mjs:248-249: the group of the first
line start where the From regex matches, else `""`. -/
def extractFrom (l : Str) : Str :=
  ((lineStarts l).findSome? extrFromAt).getD []

/-- Step 2 of the rewrite (src/index.mjs:246-264): append a `Reply-To:`
header carrying the From value when none exists and a From header was
extracted. -/
def injectReplyTo (h : Str) : Str :=
  if hasReplyTo h then h
  else
    let fromVal := extractFrom h
    if fromVal = [] then h else h ++ ("Reply-To: ".data) ++ fromVal

/-! ## From-header replacement (src/index.mjs:269-290)

`header.replace(/^from:[\t ]?(.*(?:\r?\n\s+.*)*)/gim, …)`.  Here the
folded-line group has no trailing terminator, so matching is purely
greedy. -/

/-- Greedy match of `(?:\r?\n\s+.*)*` (nothing follows, so no
backtracking): returns (consumed, rest). -/
def foldedTailF : Nat → Str → Str × Str
  | 0, l => ([], l)
  | fuel + 1, l =>
    match termAt l with
    | none => ([], l)
    | some (t, m1) =>
      if wsRun m1 = [] then ([], l)
      else
        match foldedTailF fuel (dropRun (m1.drop (wsRun m1).length)) with
        | (c2, rest) =>
          (t ++ wsRun m1 ++ takeRun (m1.drop (wsRun m1).length) ++ c2, rest)

def foldedTail (l : Str) : Str × Str := foldedTailF (l.length + 1) l

/-- `from.replace(/<(.*)>/, "")` helper: split a single-line run at its
last `'>'`, when it contains one. -/
def splitAtLastGt (run : Str) : Option (Str × Str) :=
  let suf := run.reverse.takeWhile (fun c => !(c == '>'))
  if suf.length = run.length then none
  else some (run.take (run.length - suf.length - 1), suf.reverse)

/-- `from.replace(/<(.*)>/, "")` (src/index.mjs:276): remove the first
`<…>` span, where `.*` is greedy within a single line. -/
def removeAngle : Str → Str
  | [] => []
  | c :: cs =>
    if c = '<' then
      let run := takeRun cs
      match splitAtLastGt run with
      | some (_, aft) => aft ++ cs.drop run.length
      | none => c :: removeAngle cs
    else c :: removeAngle cs

/-- JavaScript `String.prototype.trim` (ASCII whitespace fragment). -/
def trimJs (l : Str) : Str :=
  ((l.dropWhile jsWs).reverse.dropWhile jsWs).reverse

/-- `String.prototype.replace` with a plain single-character pattern:
replace the first occurrence only. -/
def replaceFirstChar (c : Char) (r : Str) : Str → Str
  | [] => []
  | x :: xs => if x = c then r ++ xs else x :: replaceFirstChar c r xs

/-- The replacement text built by the From rewrite's callback
(src/index.mjs:271-289). -/
def fromText (cfg : Config) (orig : Option Str) (fromGrp : Str) : Str :=
  if cfg.fromEmail ≠ [] then
    "From: ".data ++ trimJs (removeAngle fromGrp) ++
      " <".data ++ cfg.fromEmail ++ ['>']
  else
    "From: ".data ++
      replaceFirstChar '>' [] (replaceFirstChar '<' ("at ".data) fromGrp) ++
      " <".data ++ (match orig with | some s => s | none => "undefined".data) ++ ['>']

/-- The global multiline From replacement: scan every line start for
`from:[\t ]?` and replace the header (with its folded continuations) by
`fromText`. -/
def replaceFromScanF (cfg : Config) (orig : Option Str) : Nat → Bool → Str → Str
  | 0, _, l => l
  | fuel + 1, atStart, l =>
    match l with
    | [] => []
    | c :: cs =>
      if atStart ∧ ciStarts ("from:".data) (c :: cs) then
        let afterWs := optWs ((c :: cs).drop 5)
        let run := takeRun afterWs
        let ft := foldedTail (dropRun afterWs)
        fromText cfg orig (run ++ ft.1) ++ replaceFromScanF cfg orig fuel false ft.2
      else c :: replaceFromScanF cfg orig fuel (c = '\n') cs

def replaceFromScan (cfg : Config) (orig : Option Str) (atStart : Bool) (l : Str) : Str :=
  replaceFromScanF cfg orig (l.length + 1) atStart l

/-- Step 4 (src/index.mjs:292-300): `header.replace(/^subject:[\t ]?(.*)/gim,
(m, subject) => "Subject: " + prefix + subject)`. -/
def replaceSubjectScanF (p : Str) : Nat → Bool → Str → Str
  | 0, _, l => l
  | fuel + 1, atStart, l =>
    match l with
    | [] => []
    | c :: cs =>
      if atStart ∧ ciStarts ("subject:".data) (c :: cs) then
        let afterWs := optWs ((c :: cs).drop 8)
        ("Subject: ".data ++ p ++ takeRun afterWs) ++
          replaceSubjectScanF p fuel false (dropRun afterWs)
      else c :: replaceSubjectScanF p fuel (c = '\n') cs

def replaceSubjectScan (p : Str) (atStart : Bool) (l : Str) : Str :=
  replaceSubjectScanF p (l.length + 1) atStart l

/-- Step 5 (src/index.mjs:303-304): `header.replace(/^to:[\t ]?(.*)/gim,
"To: " + toEmail)`. -/
def replaceToScanF (toEmail : Str) : Nat → Bool → Str → Str
  | 0, _, l => l
  | fuel + 1, atStart, l =>
    match l with
    | [] => []
    | c :: cs =>
      if atStart ∧ ciStarts ("to:".data) (c :: cs) then
        let afterWs := optWs ((c :: cs).drop 3)
        ("To: ".data ++ toEmail) ++ replaceToScanF toEmail fuel false (dropRun afterWs)
      else c :: replaceToScanF toEmail fuel (c = '\n') cs

def replaceToScan (toEmail : Str) (atStart : Bool) (l : Str) : Str :=
  replaceToScanF toEmail (l.length + 1) atStart l

/-- Steps removing `Return-Path:` / `Sender:` / `Message-ID:`
(src/index.mjs:307-314): `header.replace(/^name:[\t ]?(.*)\r?\n/gim, "")`.
Only the header's first line is consumed; the regex requires the trailing
terminator, so an unterminated final line is not removed. -/
def removeLineScanF (pat : Str) : Nat → Bool → Str → Str
  | 0, _, l => l
  | fuel + 1, atStart, l =>
    match l with
    | [] => []
    | c :: cs =>
      if atStart ∧ ciStarts pat (c :: cs) then
        match termAt (dropRun (optWs ((c :: cs).drop pat.length))) with
        | some (_, rest) => removeLineScanF pat fuel true rest
        | none => c :: removeLineScanF pat fuel (c = '\n') cs
      else c :: removeLineScanF pat fuel (c = '\n') cs

def removeLineScan (pat : Str) (atStart : Bool) (l : Str) : Str :=
  removeLineScanF pat (l.length + 1) atStart l

/-! ## DKIM-Signature removal (src/index.mjs:320)

`header.replace(/^dkim-signature:[\t ]?.*\r?\n(\s+.*\r?\n)*/gim, "")`:
each continuation iteration is `\s+.*\r?\n`, whose required terminator
forces backtracking inside `\s+`. -/

/-- Try one `\s+.*\r?\n` iteration, with the `\s+` length running from
`i` down to `1`: the largest whitespace run after which a `.*`-run ends
at a `\r?\n` wins. -/
def contIters (m1 : Str) : Nat → Option (Str × Str)
  | 0 => none
  | i + 1 =>
    let m2 := m1.drop (i + 1)
    match termAt (dropRun m2) with
    | some (t, rest) => some (m1.take (i + 1) ++ takeRun m2 ++ t, rest)
    | none => contIters m1 i

theorem contIters_rest_lt {m1 : Str} :
    ∀ {j : Nat} {c rest : Str}, contIters m1 j = some (c, rest) →
      rest.length < m1.length := by
  intro j
  induction j with
  | zero => intro c rest h; simp [contIters] at h
  | succ i ih =>
    intro c rest h
    rw [contIters] at h
    split at h
    · rename_i t r heq
      simp only [Option.some.injEq, Prod.mk.injEq] at h
      obtain ⟨-, rfl⟩ := h
      have h1 := termAt_length_lt heq
      have h2 := dropRun_length_le (m1.drop (i + 1))
      simp only [List.length_drop] at h2
      omega
    · exact ih h

/-- Greedy `(\s+.*\r?\n)*`: repeat iterations while one parses. -/
def contStarF : Nat → Str → Str × Str
  | 0, l => ([], l)
  | fuel + 1, l =>
    match contIters l (wsRun l).length with
    | some (c1, rest) =>
      match contStarF fuel rest with
      | (c2, r2) => (c1 ++ c2, r2)
    | none => ([], l)

def contStar (l : Str) : Str × Str := contStarF (l.length + 1) l

/-- Step 6's DKIM scan: remove every `dkim-signature:` header together
with its folded continuation lines. -/
def removeDkimScanF : Nat → Bool → Str → Str
  | 0, _, l => l
  | fuel + 1, atStart, l =>
    match l with
    | [] => []
    | c :: cs =>
      if atStart ∧ ciStarts ("dkim-signature:".data) (c :: cs) then
        match termAt (dropRun (optWs ((c :: cs).drop 15))) with
        | some (_, r1) => removeDkimScanF fuel true (contStar r1).2
        | none => c :: removeDkimScanF fuel (c = '\n') cs
      else c :: removeDkimScanF fuel (c = '\n') cs

def removeDkimScan (atStart : Bool) (l : Str) : Str :=
  removeDkimScanF (l.length + 1) atStart l

/-! ## The whole header rewrite and message rewrite -/

/-- Step 4 guarded by the subject-prefix truthiness check
(src/index.mjs:293: `if (data.config.subjectPrefix)`). -/
def subjectStep (cfg : Config) (h : Str) : Str :=
  if cfg.subjectPrefix ≠ [] then replaceSubjectScan cfg.subjectPrefix true h else h

/-- Step 5 guarded by the `toEmail` truthiness check
(src/index.mjs:303: `if (data.config.toEmail)`). -/
def toStep (cfg : Config) (h : Str) : Str :=
  if cfg.toEmail ≠ [] then replaceToScan cfg.toEmail true h else h

/-- All header-block transformations of `processMessage`
(src/index.mjs:246-320), in source order. -/
def processHeader (cfg : Config) (orig : Option Str) (h0 : Str) : Str :=
  let h1 := injectReplyTo h0
  let h2 := replaceFromScan cfg orig true h1
  let h3 := subjectStep cfg h2
  let h4 := toStep cfg h3
  let h5 := removeLineScan ("return-path:".data) true h4
  let h6 := removeLineScan ("sender:".data) true h5
  let h7 := removeLineScan ("message-id:".data) true h6
  removeDkimScan true h7

/-- `processMessage` (src/index.mjs:241-324): split, rewrite the header
block, reassemble. -/
def processMessage (cfg : Config) (orig : Option Str) (emailData : Str) : Str :=
  let hb := splitMessage emailData
  processHeader cfg orig hb.1 ++ hb.2

/-! ## Structured header text

A specification vocabulary for the rewrite's behaviour on well-formed
header blocks: physical lines (content + terminator) and logical folded
headers (a first line plus whitespace-led continuation lines). -/

/-- One physical header line: single-line content and its terminator. -/
structure HLine where
  content : Str
  term : Str
  deriving DecidableEq

/-- A valid line terminator: `"\n"` or `"\r\n"`. -/
def goodTerm (t : Str) : Prop := t = ['\n'] ∨ t = ['\r', '\n']

/-- A well-formed physical line: non-empty content free of terminator
characters, properly terminated. -/
def lineWF (ln : HLine) : Prop :=
  ln.content ≠ [] ∧ (∀ c ∈ ln.content, isTermChar c = false) ∧ goodTerm ln.term

def renderL (ln : HLine) : Str := ln.content ++ ln.term

def renderLs (ls : List HLine) : Str := (ls.map renderL).join

/-- Whether a string starts with a whitespace character. -/
def startsWs (l : Str) : Bool :=
  match l with
  | [] => false
  | c :: _ => jsWs c

/-- A logical (folded) header: a first line plus its folded continuation
lines. -/
structure HBlock where
  first : HLine
  conts : List HLine
  deriving DecidableEq

/-- A well-formed folded header: the first line starts with a
non-whitespace character, every continuation line starts with
whitespace, and every line also contains a non-whitespace character (no
whitespace-only lines, which the `\s+` of the folded-header regexes
would run across). -/
def blockWF (b : HBlock) : Prop :=
  lineWF b.first ∧ startsWs b.first.content = false ∧
  (∃ c ∈ b.first.content, jsWs c = false) ∧
  ∀ ln ∈ b.conts, lineWF ln ∧ startsWs ln.content = true ∧
    ∃ c ∈ ln.content, jsWs c = false

def renderB (b : HBlock) : Str := renderL b.first ++ renderLs b.conts

def renderBs (bs : List HBlock) : Str := (bs.map renderB).join

instance decGoodTerm (t : Str) : Decidable (goodTerm t) := by
  unfold goodTerm
  infer_instance

instance decLineWF (ln : HLine) : Decidable (lineWF ln) := by
  unfold lineWF
  infer_instance

instance decBlockWF (b : HBlock) : Decidable (blockWF b) := by
  unfold blockWF
  infer_instance

/-- The number of `Reply-To:` headers of a header text: its line starts
matching `^reply-to:` case-insensitively. -/
def countReplyTo (l : Str) : Nat :=
  ((lineStarts l).filter (ciStarts ("reply-to:".data))).length

/-- The per-line action of the subject-prefix replacement. -/
def subjLine (p : Str) (ln : HLine) : HLine :=
  if ciStarts ("subject:".data) ln.content then
    ⟨"Subject: ".data ++ p ++ optWs (ln.content.drop 8), ln.term⟩
  else ln

/-- The per-line action of a first-line removal (`Return-Path:` /
`Sender:` / `Message-ID:`): a matching line disappears (its folded
continuations do not), everything else is copied. -/
def removeLineL (pat : Str) (ln : HLine) : Str :=
  if ciStarts pat ln.content then [] else renderL ln

/-- The per-block action of the DKIM removal: a matching folded header
disappears in full, continuation lines included. -/
def removeDkimB (b : HBlock) : Str :=
  if ciStarts ("dkim-signature:".data) b.first.content then [] else renderB b

/-- The Reply-To block built by the injection step from the matched From
block: `"Reply-To: "`, then the From value verbatim — the rest of the
From line, the same terminator and the same folded continuations. -/
def replyToBlock (b : HBlock) : HBlock :=
  ⟨⟨"Reply-To: ".data ++ optWs (b.first.content.drop 5), b.first.term⟩, b.conts⟩

/-! ## The event shape and the step pipeline
(`parseEvent`, `handler`, `Promise.series`; src/index.mjs:76-97, 384-432)

Absent JavaScript object properties are modelled as `none`.  The external
collaborators are modelled in their successful mode: S3 returns the
message text carried in the context (`s3Content`), and SES accepts the
send — the claims under study concern validation, resolution and the
no-recipient path, not collaborator outages. -/

/-- `event.Records[i].ses.mail`. -/
structure Mail where
  messageId : Str
  deriving DecidableEq

/-- `event.Records[i].ses.receipt`. -/
structure Receipt where
  recipients : List Str
  deriving DecidableEq

/-- `event.Records[i].ses`. -/
structure SesData where
  mail : Option Mail
  receipt : Option Receipt
  deriving DecidableEq

/-- One element of `event.Records`. -/
structure SesRecord where
  eventSource : Option Str
  eventVersion : Option Str
  ses : Option SesData
  deriving DecidableEq

/-- The Lambda event. -/
structure Event where
  records : Option (List SesRecord)
  deriving DecidableEq

/-- The mutable `data` bundle threaded through the steps
(src/index.mjs:395-403 and fields added by the steps). -/
structure Ctx where
  event : Option Event
  config : Config
  s3Content : Str
  email : Option Mail
  recipients : List Str
  originalRecipients : List Str
  originalRecipient : Option Str
  emailData : Str
  deriving DecidableEq

/-- Why a step's promise rejected. -/
inductive Failure where
  | invalidEvent   -- the explicit `Error("Error: Received invalid SES message.")`
  | typeError      -- a property access on `undefined`
  deriving DecidableEq, Repr

/-- The envelope conditions `parseEvent` actually checks
(src/index.mjs:78-85): an event with a `Records` list of length one whose
record carries `eventSource === "aws:ses"` and `eventVersion === "1.0"`. -/
def envelopeOK (e : Option Event) : Bool :=
  match e with
  | none => false
  | some ev =>
    match ev.records with
    | none => false
    | some [r] =>
      decide (r.eventSource = some ("aws:ses".data) ∧ r.eventVersion = some ("1.0".data))
    | some _ => false

/-- A recorded `sendRawEmail` call: (Destinations, Source). -/
abbrev Send := List Str × Option Str

/-- Result of one step of the promise chain: the resolved value (which,
like `data.callback()`'s return, can be `undefined` = `none`), or a
rejection; plus the callback invocations (`true` = called without an
error argument) and sends the step performed. -/
inductive StepOut where
  | next (d : Option Ctx) (calls : List Bool) (sends : List Send)
  | fail (f : Failure) (calls : List Bool) (sends : List Send)
  deriving DecidableEq

/-- `parseEvent` (src/index.mjs:76-97).  The validation rejects with the
invalid-message error exactly on the envelope checks of lines 78-85; a
passing record then has `ses.mail` and `ses.receipt.recipients` read,
which throws (a TypeError, not the invalid-message error) when `ses` or
`receipt` is absent, and copies `mail` / `recipients` unexamined
otherwise. -/
def parseEvent (d : Option Ctx) : StepOut :=
  match d with
  | none => .fail .typeError [] []
  | some ctx =>
    match ctx.event with
    | none => .fail .invalidEvent [] []
    | some ev =>
      match ev.records with
      | none => .fail .invalidEvent [] []
      | some rs =>
        match rs with
        | [r] =>
          if r.eventSource = some ("aws:ses".data) ∧ r.eventVersion = some ("1.0".data) then
            match r.ses with
            | none => .fail .typeError [] []
            | some s =>
              match s.receipt with
              | none => .fail .typeError [] []
              | some rc =>
                .next (some { ctx with email := s.mail, recipients := rc.recipients }) [] []
          else .fail .invalidEvent [] []
        | _ => .fail .invalidEvent [] []

/-- `transformRecipients` (src/index.mjs:106-165).  On an empty
resolution it calls `data.callback()` (recorded as a no-error callback
invocation) and resolves with the callback's return value — `undefined`,
i.e. `none`. -/
def transformRecipients (d : Option Ctx) : StepOut :=
  match d with
  | none => .fail .typeError [] []
  | some ctx =>
    let st := resolveAll ctx.config ctx.recipients
    if st.newRecipients = [] then .next none [true] []
    else
      .next (some { ctx with
        originalRecipients := ctx.recipients,
        recipients := st.newRecipients,
        originalRecipient := st.originalRecipient }) [] []

/-- `fetchMessage` (src/index.mjs:174-231), with S3 succeeding: reads
`data.email.messageId` (throwing when `email` is `undefined`) and stores
the fetched text in `emailData`. -/
def fetchMessage (d : Option Ctx) : StepOut :=
  match d with
  | none => .fail .typeError [] []
  | some ctx =>
    match ctx.email with
    | none => .fail .typeError [] []
    | some _ => .next (some { ctx with emailData := ctx.s3Content }) [] []

/-- The `processMessage` step (src/index.mjs:241-324). -/
def processMessageStep (d : Option Ctx) : StepOut :=
  match d with
  | none => .fail .typeError [] []
  | some ctx =>
    .next (some { ctx with
      emailData := processMessage ctx.config ctx.originalRecipient ctx.emailData }) [] []

/-- `sendMessage` (src/index.mjs:333-372), with SES accepting: records
the send with `Destinations = data.recipients` and
`Source = data.originalRecipient`. -/
def sendMessage (d : Option Ctx) : StepOut :=
  match d with
  | none => .fail .typeError [] []
  | some ctx => .next (some ctx) [] [(ctx.recipients, ctx.originalRecipient)]

/-- The default step list (src/index.mjs:385-394). -/
def defaultSteps : List (Option Ctx → StepOut) :=
  [parseEvent, transformRecipients, fetchMessage, processMessageStep, sendMessage]

/-- `Promise.series` (src/index.mjs:423-432): thread the resolved value
through the steps, short-circuiting on the first rejection, accumulating
callback invocations and sends. -/
def runSteps : List (Option Ctx → StepOut) → Option Ctx → StepOut
  | [], d => .next d [] []
  | s :: rest, d =>
    match s d with
    | .next d1 c1 s1 =>
      match runSteps rest d1 with
      | .next d2 c2 s2 => .next d2 (c1 ++ c2) (s1 ++ s2)
      | .fail f c2 s2 => .fail f (c1 ++ c2) (s1 ++ s2)
    | .fail f c1 s1 => .fail f c1 s1

/-- The initial `data` bundle `handler` builds (src/index.mjs:395-403). -/
def ctxOf (ev : Option Event) (cfg : Config) (s3 : Str) : Ctx :=
  { event := ev, config := cfg, s3Content := s3, email := none,
    recipients := [], originalRecipients := [], originalRecipient := none,
    emailData := [] }

/-- `handler` (src/index.mjs:384-421) over the default steps: run the
chain on the initial bundle, then fire the callback from the `.then`
handler (which itself throws, landing in `.catch`, when the chain
resolved with `undefined`) or from the `.catch` handler.  Returns the
full list of callback invocations (`true` = without error) and the
sends performed. -/
def handler (ev : Option Event) (cfg : Config) (s3 : Str) : List Bool × List Send :=
  match runSteps defaultSteps (some (ctxOf ev cfg s3)) with
  | .next d calls sends =>
    match d with
    | some _ => (calls ++ [true], sends)
    | none => (calls ++ [false], sends)
  | .fail _ calls sends => (calls ++ [false], sends)

/-! ## Concrete instances used by witnesses and counterexamples -/

/-- A two-rule table in which both inbound recipients match. -/
def cfgTwo : Config :=
  ⟨[], [], [], true,
    [("a@x".data, ["d1@y".data]), ("b@x".data, ["d2@y".data])]⟩

/-- A table holding a full-address rule together with overlapping domain,
local-part and catch-all rules for the same address. -/
def ruleW : RuleTable :=
  [("a@b".data, ["full@y".data]), ("@b".data, ["dom@y".data]),
   ("a".data, ["usr@y".data]), ("@".data, ["all@y".data])]

/-- A configuration with plus addressing enabled and a single
full-address rule. -/
def cfgPlus : Config :=
  ⟨[], [], [], true, [("user@domain".data, ["dest@y".data])]⟩

/-- A well-enveloped SES payload whose receipt names one recipient that
no rule of `cfgNoCatch` matches. -/
def sesNoMatch : SesData :=
  ⟨some ⟨"mid".data⟩, some ⟨["nomatch@z.com".data]⟩⟩

def recNoMatch : SesRecord :=
  ⟨some ("aws:ses".data), some ("1.0".data), some sesNoMatch⟩

def eventNoMatch : Event := ⟨some [recNoMatch]⟩

/-- A rule table with no catch-all and no rule for `nomatch@z.com`. -/
def cfgNoCatch : Config :=
  ⟨[], [], [], true, [("info@x.com".data, ["a@y.com".data])]⟩

/-- An all-default configuration: no sender address, no subject prefix,
no To override, empty rule table. -/
def cfgPlain : Config := ⟨[], [], [], true, []⟩

/-- A well-enveloped SES payload whose receipt carries an *empty*
recipient list (and a mail object). -/
def sesEmptyRec : SesData := ⟨some ⟨"mid".data⟩, some ⟨[]⟩⟩

def recEmptyRec : SesRecord :=
  ⟨some ("aws:ses".data), some ("1.0".data), some sesEmptyRec⟩

def eventEmptyRec : Event := ⟨some [recEmptyRec]⟩

/-! # Theorems -/

/-! ## C1: which original recipient is credited -/

theorem resolveStep_of_not_matches (cfg : Config) (st : ResolveState) (r : Str)
    (h : matchesRule cfg r = false) : resolveStep cfg st r = st := by
  unfold matchesRule at h
  unfold resolveStep
  cases hl : lookupDest cfg.forwardMapping (normKey cfg r) with
  | none => rfl
  | some d => rw [hl] at h; simp at h

theorem resolveStep_orig_of_matches (cfg : Config) (st : ResolveState) (r : Str)
    (h : matchesRule cfg r = true) :
    (resolveStep cfg st r).originalRecipient = some r := by
  unfold matchesRule at h
  unfold resolveStep
  cases hl : lookupDest cfg.forwardMapping (normKey cfg r) with
  | none => rw [hl] at h; simp at h
  | some d => rfl

theorem getLast?_cons_or {α : Type} (a : α) (l : List α) :
    (a :: l).getLast? = l.getLast?.or (some a) := by
  induction l generalizing a with
  | nil => rfl
  | cons b bs ih =>
    rw [List.getLast?_cons_cons, ih b]
    cases h : bs.getLast? <;> simp [Option.or]

theorem resolveAll_orig_general (cfg : Config) (recips : List Str) :
    ∀ st : ResolveState,
      (recips.foldl (resolveStep cfg) st).originalRecipient =
        ((recips.filter (matchesRule cfg)).getLast?).or st.originalRecipient := by
  induction recips with
  | nil => intro st; rfl
  | cons r rs ih =>
    intro st
    rw [List.foldl_cons, ih]
    by_cases h : matchesRule cfg r = true
    · rw [List.filter_cons_of_pos (by simpa using h), getLast?_cons_or,
        resolveStep_orig_of_matches cfg st r h]
      cases hg : (rs.filter (matchesRule cfg)).getLast? <;> simp [Option.or]
    · rw [List.filter_cons_of_neg (by simpa using h),
        resolveStep_of_not_matches cfg st r (by simpa using h)]

/-- C1 (amended): the chosen original recipient recorded by recipient
resolution — later used as the send `Source` — is the **last** recipient,
in input order, that produced any rule match (`data.originalRecipient` is
overwritten on every match, src/index.mjs:118/136/144/147), not the
first. -/
theorem originalRecipient_eq_last_match (cfg : Config) (recips : List Str) :
    (resolveAll cfg recips).originalRecipient =
      (recips.filter (matchesRule cfg)).getLast? := by
  unfold resolveAll
  rw [resolveAll_orig_general]
  cases h : (recips.filter (matchesRule cfg)).getLast? <;> simp [Option.or]


/-! ## C7: what the event validation checks -/

/-- C7 (amended): `parseEvent` rejects with the invalid-message error
exactly when the envelope conditions fail (one record, `aws:ses` source
tag, version `"1.0"`); the mail object and the recipient list are not
examined: under those envelope conditions, with the `ses` and `receipt`
objects present for the subsequent property reads, the step succeeds and
copies `mail` and `recipients` unchecked — even an absent mail object or
an empty recipient list. -/
theorem parseEvent_validation (ctx : Ctx) :
    (parseEvent (some ctx) = .fail .invalidEvent [] [] ↔ envelopeOK ctx.event = false) ∧
    (∀ ev r sd rc, ctx.event = some ev → ev.records = some [r] →
      r.eventSource = some ("aws:ses".data) → r.eventVersion = some ("1.0".data) →
      r.ses = some sd → sd.receipt = some rc →
      parseEvent (some ctx) =
        .next (some { ctx with email := sd.mail, recipients := rc.recipients }) [] []) := by
  constructor
  · cases hev : ctx.event with
    | none => simp [parseEvent, envelopeOK, hev]
    | some ev =>
      cases hrec : ev.records with
      | none => simp [parseEvent, envelopeOK, hev, hrec]
      | some rs =>
        match rs with
        | [] => simp [parseEvent, envelopeOK, hev, hrec]
        | [r] =>
          by_cases hc : r.eventSource = some ("aws:ses".data) ∧
              r.eventVersion = some ("1.0".data)
          · cases hses : r.ses with
            | none => simp [parseEvent, envelopeOK, hev, hrec, hc, hses]
            | some sd =>
              cases hrc : sd.receipt with
              | none => simp [parseEvent, envelopeOK, hev, hrec, hc, hses, hrc]
              | some rc => simp [parseEvent, envelopeOK, hev, hrec, hc, hses, hrc]
          · simp [parseEvent, envelopeOK, hev, hrec, hc]
        | r1 :: r2 :: rest => simp [parseEvent, envelopeOK, hev, hrec]
  · intro ev r sd rc h1 h2 h3 h4 h5 h6
    simp [parseEvent, h1, h2, h3, h4, h5, h6]

/-- C7 (counterexample): a well-enveloped event whose receipt has an
*empty* recipient list passes validation — `parseEvent` resolves
successfully (no invalid-event failure), copying the empty list into the
context; the claim's "fails … unless … a non-empty recipient list" is
false on the code. -/
theorem parseEvent_empty_recipients_cex :
    parseEvent (some (ctxOf (some eventEmptyRec) cfgNoCatch [])) =
      .next (some { ctxOf (some eventEmptyRec) cfgNoCatch [] with
        email := some ⟨"mid".data⟩, recipients := [] }) [] [] := by
  decide

/-! ## C6 and C10: the no-recipient early exit and what follows it -/

/-- Shared computation: with a well-enveloped event whose recipients
resolve to nothing, the chain runs `parseEvent`, then
`transformRecipients` fires the callback (no error) and resolves with
`undefined`; `fetchMessage` then rejects on the missing context, which
short-circuits the rest. -/
theorem runSteps_noRecipients (cfg : Config) (ev : Event) (r : SesRecord)
    (sd : SesData) (rc : Receipt) (s3 : Str)
    (h1 : ev.records = some [r])
    (h2 : r.eventSource = some ("aws:ses".data))
    (h3 : r.eventVersion = some ("1.0".data))
    (h4 : r.ses = some sd) (h5 : sd.receipt = some rc)
    (h6 : (resolveAll cfg rc.recipients).newRecipients = []) :
    runSteps defaultSteps (some (ctxOf (some ev) cfg s3)) =
      .fail .typeError [true] [] := by
  have hparse : parseEvent (some (ctxOf (some ev) cfg s3)) =
      .next (some { ctxOf (some ev) cfg s3 with
        email := sd.mail, recipients := rc.recipients }) [] [] := by
    simp [parseEvent, ctxOf, h1, h2, h3, h4, h5]
  have htrans : transformRecipients (some { ctxOf (some ev) cfg s3 with
      email := sd.mail, recipients := rc.recipients }) = .next none [true] [] := by
    simp [transformRecipients, ctxOf, h6]
  unfold defaultSteps
  simp only [runSteps, hparse, htrans, fetchMessage, List.nil_append, List.append_nil]

/-- C10: after the no-recipients early exit fires the callback, the
orchestrator's chain continues with the callback's return value
(`undefined`) as the shared context; `fetchMessage` fails on the missing
context, and the handler's catch invokes the callback a second time,
this time with an error — the early exit does not stop the remaining
steps. -/
theorem earlyExit_continues (cfg : Config) (ev : Event) (r : SesRecord)
    (sd : SesData) (rc : Receipt) (s3 : Str)
    (h1 : ev.records = some [r])
    (h2 : r.eventSource = some ("aws:ses".data))
    (h3 : r.eventVersion = some ("1.0".data))
    (h4 : r.ses = some sd) (h5 : sd.receipt = some rc)
    (h6 : (resolveAll cfg rc.recipients).newRecipients = []) :
    runSteps defaultSteps (some (ctxOf (some ev) cfg s3)) =
      .fail .typeError [true] [] ∧
    handler (some ev) cfg s3 = ([true, false], []) := by
  have hrun := runSteps_noRecipients cfg ev r sd rc s3 h1 h2 h3 h4 h5 h6
  refine ⟨hrun, ?_⟩
  unfold handler
  rw [hrun]
  rfl

/-- C10 (witness): the concrete no-match event: the chain fails after
the early exit and the callback fires twice, the second time with an
error. -/
theorem earlyExit_continues_witness :
    runSteps defaultSteps (some (ctxOf (some eventNoMatch) cfgNoCatch [])) =
      .fail .typeError [true] [] ∧
    handler (some eventNoMatch) cfgNoCatch [] = ([true, false], []) :=
  earlyExit_continues cfgNoCatch eventNoMatch recNoMatch sesNoMatch
    ⟨["nomatch@z.com".data]⟩ [] (by decide) (by decide) (by decide)
    (by decide) (by decide) (by decide)

/-- C6 (amended): when resolution yields no destinations, nothing is
sent and the callback first fires without an error; but the run does not
end as a clean success: the remaining steps still run on the now-missing
context, fail, and the callback fires a second time, with an error. -/
theorem noRecipients_skip (cfg : Config) (ev : Event) (r : SesRecord)
    (sd : SesData) (rc : Receipt) (s3 : Str)
    (h1 : ev.records = some [r])
    (h2 : r.eventSource = some ("aws:ses".data))
    (h3 : r.eventVersion = some ("1.0".data))
    (h4 : r.ses = some sd) (h5 : sd.receipt = some rc)
    (h6 : (resolveAll cfg rc.recipients).newRecipients = []) :
    (handler (some ev) cfg s3).2 = [] ∧
    (handler (some ev) cfg s3).1 = [true, false] := by
  have hrun := runSteps_noRecipients cfg ev r sd rc s3 h1 h2 h3 h4 h5 h6
  unfold handler
  rw [hrun]
  exact ⟨rfl, rfl⟩

/-- C6 (witness): the concrete no-match event, through `noRecipients_skip`:
no send, callback fires `[true, false]`. -/
theorem noRecipients_skip_witness :
    (handler (some eventNoMatch) cfgNoCatch []).2 = [] ∧
    (handler (some eventNoMatch) cfgNoCatch []).1 = [true, false] :=
  noRecipients_skip cfgNoCatch eventNoMatch recNoMatch sesNoMatch
    ⟨["nomatch@z.com".data]⟩ [] (by decide) (by decide) (by decide)
    (by decide) (by decide) (by decide)

/-- C6 (counterexample): on the concrete no-match event the completion
callback does *not* simply fire without an error: the run also invokes
it a second time with an error (`false` in the call list), so the claim's
"terminates as an overall success … the caller's completion callback
fires without an error" is false of the run as a whole. -/
theorem noRecipients_error_callback_cex :
    handler (some eventNoMatch) cfgNoCatch [] = ([true, false], []) ∧
    false ∈ (handler (some eventNoMatch) cfgNoCatch []).1 := by
  refine ⟨by decide, ?_⟩
  rw [show handler (some eventNoMatch) cfgNoCatch [] = ([true, false], []) from by decide]
  simp

/-! ## Basic facts about runs, terminators and rendered lines -/

theorem termAt_goodTerm {bt : Str} (h : goodTerm bt) (r : Str) :
    termAt (bt ++ r) = some (bt, r) := by
  rcases h with h | h <;> subst h <;> rfl

theorem termAt_eq_parts {l t r : Str} (h : termAt l = some (t, r)) :
    l = t ++ r ∧ goodTerm t := by
  match l with
  | [] => simp [termAt] at h
  | c :: cs =>
    simp only [termAt] at h
    split at h
    · rename_i hc
      simp only [Option.some.injEq, Prod.mk.injEq] at h
      obtain ⟨rfl, rfl⟩ := h
      subst hc
      exact ⟨rfl, Or.inl rfl⟩
    · split at h
      · rename_i hc hc2
        match cs with
        | [] => simp at h
        | c2 :: cs2 =>
          simp only at h
          split at h
          · rename_i hc3
            simp only [Option.some.injEq, Prod.mk.injEq] at h
            obtain ⟨rfl, rfl⟩ := h
            subst hc2 hc3
            exact ⟨rfl, Or.inr rfl⟩
          · simp at h
      · simp at h

theorem termAt_none_of_nonTerm {c : Char} (hc : isTermChar c = false) (cs : Str) :
    termAt (c :: cs) = none := by
  simp only [isTermChar, Bool.or_eq_false_iff, beq_eq_false_iff_ne, ne_eq] at hc
  simp [termAt, hc.1, hc.2]

theorem takeRun_append {content : Str} (h : ∀ c ∈ content, isTermChar c = false)
    (r : Str) : takeRun (content ++ r) = content ++ takeRun r := by
  induction content with
  | nil => rfl
  | cons c cs ih =>
    have hc := h c (List.mem_cons_self c cs)
    rw [List.cons_append]
    unfold takeRun
    rw [List.takeWhile_cons]
    simp only [hc, Bool.not_false, if_true]
    rw [← takeRun, ih (fun x hx => h x (List.mem_cons_of_mem c hx))]
    rfl

theorem dropRun_append {content : Str} (h : ∀ c ∈ content, isTermChar c = false)
    (r : Str) : dropRun (content ++ r) = dropRun r := by
  induction content with
  | nil => rfl
  | cons c cs ih =>
    have hc := h c (List.mem_cons_self c cs)
    rw [List.cons_append]
    unfold dropRun
    rw [List.dropWhile_cons]
    simp only [hc, Bool.not_false, if_true]
    exact ih (fun x hx => h x (List.mem_cons_of_mem c hx))

theorem renderLs_cons (ln : HLine) (ls : List HLine) :
    renderLs (ln :: ls) = renderL ln ++ renderLs ls := by
  simp [renderLs]

theorem renderLs_ne_nil {ln : HLine} (h : ln.content ≠ []) (ls : List HLine) :
    renderLs (ln :: ls) ≠ [] := by
  rw [renderLs_cons]
  unfold renderL
  intro he
  rcases List.append_eq_nil.mp he with ⟨h1, -⟩
  rcases List.append_eq_nil.mp h1 with ⟨h2, -⟩
  exact h h2

/-! ## The split on structured input (towards C3) -/

theorem splitCandF_structured :
    ∀ (ls : List HLine) (fuel : Nat) (bt body : Str),
      (∀ ln ∈ ls, lineWF ln) → goodTerm bt →
      (renderLs ls ++ bt ++ body).length < fuel →
      splitCandF fuel (renderLs ls ++ bt ++ body) =
        some (renderLs ls, bt, body) := by
  intro ls
  induction ls with
  | nil =>
    intro fuel bt body hwf hbt hfuel
    match fuel with
    | 0 => omega
    | f + 1 =>
      show splitCandF (f + 1) (renderLs [] ++ bt ++ body) = _
      have h0 : renderLs [] = ([] : Str) := rfl
      rw [h0, List.nil_append, splitCandF, termAt_goodTerm hbt]
  | cons ln rest ih =>
    intro fuel bt body hwf hbt hfuel
    match fuel with
    | 0 => omega
    | f + 1 =>
      obtain ⟨hne, hnt, hterm⟩ := hwf ln (List.mem_cons_self ln rest)
      obtain ⟨c, cs, hcontent⟩ := List.exists_cons_of_ne_nil hne
      have hl : renderLs (ln :: rest) ++ bt ++ body =
          ln.content ++ (ln.term ++ (renderLs rest ++ bt ++ body)) := by
        rw [renderLs_cons]
        unfold renderL
        simp [List.append_assoc]
      rw [splitCandF, hl]
      have hcnone : termAt (ln.content ++ (ln.term ++ (renderLs rest ++ bt ++ body))) = none := by
        rw [hcontent, List.cons_append]
        exact termAt_none_of_nonTerm (hnt c (by rw [hcontent]; exact List.mem_cons_self c cs)) _
      rw [hcnone]
      have htake : takeRun (ln.content ++ (ln.term ++ (renderLs rest ++ bt ++ body))) =
          ln.content ++ takeRun (ln.term ++ (renderLs rest ++ bt ++ body)) :=
        takeRun_append hnt _
      have htermrun : takeRun (ln.term ++ (renderLs rest ++ bt ++ body)) = [] := by
        rcases hterm with h | h <;> rw [h] <;> rfl
      have hdrop : dropRun (ln.content ++ (ln.term ++ (renderLs rest ++ bt ++ body))) =
          ln.term ++ (renderLs rest ++ bt ++ body) := by
        rw [dropRun_append hnt]
        rcases hterm with h | h <;> rw [h] <;> rfl
      simp only [htake, htermrun, List.append_nil, hdrop]
      have hrunne : ¬(ln.content = []) := hne
      rw [if_neg hrunne]
      rw [termAt_goodTerm hterm]
      have hlen : (renderLs rest ++ bt ++ body).length < f := by
        have : (renderLs (ln :: rest) ++ bt ++ body).length =
            ln.content.length + ln.term.length + (renderLs rest ++ bt ++ body).length := by
          rw [renderLs_cons]
          unfold renderL
          simp
          omega
        have hterml : 1 ≤ ln.term.length := by
          rcases hterm with h | h <;> simp [h]
        have hcl : 1 ≤ ln.content.length := by
          rw [hcontent]; simp
        omega
      simp only [ih f bt body (fun x hx => hwf x (List.mem_cons_of_mem ln hx)) hbt hlen]
      simp [renderLs_cons, renderL, List.append_assoc]

theorem splitMessage_structured (ls : List HLine) (bt body : Str)
    (hne : ls ≠ []) (hwf : ∀ ln ∈ ls, lineWF ln) (hbt : goodTerm bt) :
    splitMessage (renderLs ls ++ bt ++ body) =
      (renderLs ls, bt ++ takeThroughLastWs body) := by
  have hcand : splitCand (renderLs ls ++ bt ++ body) =
      some (renderLs ls, bt, body) := by
    unfold splitCand
    exact splitCandF_structured ls _ bt body hwf hbt (Nat.lt_succ_self _)
  have hscan : splitScan (renderLs ls ++ bt ++ body) =
      some (renderLs ls, bt, body) := by
    unfold splitScan
    rw [splitScanF, hcand]
  unfold splitMessage
  rw [hscan]
  have hg1 : renderLs ls ≠ [] := by
    match ls, hne with
    | ln :: rest, _ =>
      exact renderLs_ne_nil (hwf ln (List.mem_cons_self ln rest)).1 rest
  simp [hg1]

/-! ## The fallback split when no blank line exists -/

theorem lineStartsAfter_subset {r l : Str} (h : r <:+ l) :
    lineStartsAfter r ⊆ lineStartsAfter l := by
  induction l with
  | nil =>
    rw [List.suffix_nil.mp h]
    exact fun x hx => hx
  | cons c cs ih =>
    rcases List.suffix_cons_iff.mp h with h1 | h1
    · rw [h1]
      exact fun x hx => hx
    · intro x hx
      have hx2 := ih h1 hx
      unfold lineStartsAfter
      split
      · exact List.mem_cons_of_mem _ hx2
      · exact hx2

theorem mem_lineStartsAfter (X r : Str) : r ∈ lineStartsAfter (X ++ '\n' :: r) := by
  induction X with
  | nil => simp [lineStartsAfter]
  | cons c cs ih =>
    rw [List.cons_append]
    unfold lineStartsAfter
    split
    · exact List.mem_cons_of_mem _ ih
    · exact ih

theorem lineStarts_after_nl_subset {X r l : Str} (h : l = X ++ '\n' :: r) :
    ∀ x ∈ lineStarts r, x ∈ lineStarts l := by
  intro x hx
  have hsuf : r <:+ l := ⟨X ++ ['\n'], by simp [h]⟩
  rcases hx with - | hx2
  · subst h
    exact List.mem_cons_of_mem _ (mem_lineStartsAfter X r)
  · rename_i hx2
    exact List.mem_cons_of_mem _ (lineStartsAfter_subset hsuf hx2)

theorem afterTerm_parts {l r : Str} (h : afterTerm l = some r) :
    ∃ X c, (c = '\n' ∨ c = '\r') ∧ l = X ++ c :: r := by
  induction l with
  | nil => simp [afterTerm] at h
  | cons c cs ih =>
    unfold afterTerm at h
    split at h
    · rename_i hc
      cases h
      exact ⟨[], c, hc, rfl⟩
    · obtain ⟨X, c2, hc2, hX⟩ := ih h
      exact ⟨c :: X, c2, hc2, by rw [hX]; rfl⟩

theorem lineStartsAfterCR_subset {r l : Str} (h : r <:+ l) :
    lineStartsAfterCR r ⊆ lineStartsAfterCR l := by
  induction l with
  | nil =>
    rw [List.suffix_nil.mp h]
    exact fun x hx => hx
  | cons c cs ih =>
    rcases List.suffix_cons_iff.mp h with h1 | h1
    · rw [h1]
      exact fun x hx => hx
    · intro x hx
      have hx2 := ih h1 hx
      unfold lineStartsAfterCR
      split
      · exact List.mem_cons_of_mem _ hx2
      · exact hx2

theorem mem_lineStartsAfterCR (X r : Str) {c : Char} (hc : c = '\n' ∨ c = '\r') :
    r ∈ lineStartsAfterCR (X ++ c :: r) := by
  induction X with
  | nil =>
    show r ∈ lineStartsAfterCR (c :: r)
    unfold lineStartsAfterCR
    rw [if_pos hc]
    exact List.mem_cons_self _ _
  | cons c2 cs ih =>
    rw [List.cons_append]
    unfold lineStartsAfterCR
    split
    · exact List.mem_cons_of_mem _ ih
    · exact ih

theorem lineStartsJs_after_subset {X r l : Str} {c : Char}
    (hc : c = '\n' ∨ c = '\r') (h : l = X ++ c :: r) :
    ∀ x ∈ lineStartsJs r, x ∈ lineStartsJs l := by
  intro x hx
  have hsuf : r <:+ l := ⟨X ++ [c], by simp [h]⟩
  rcases List.mem_cons.mp hx with rfl | hx2
  · subst h
    exact List.mem_cons_of_mem _ (mem_lineStartsAfterCR X x hc)
  · exact List.mem_cons_of_mem _ (lineStartsAfterCR_subset hsuf hx2)

theorem lineStartsAfter_subset_CR :
    ∀ l : Str, ∀ x ∈ lineStartsAfter l, x ∈ lineStartsAfterCR l := by
  intro l
  induction l with
  | nil => intro x hx; exact hx
  | cons c cs ih =>
    intro x hx
    unfold lineStartsAfter at hx
    unfold lineStartsAfterCR
    by_cases hc : c = '\n'
    · rw [if_pos hc] at hx
      rw [if_pos (Or.inl hc)]
      rcases List.mem_cons.mp hx with rfl | hx2
      · exact List.mem_cons_self _ _
      · exact List.mem_cons_of_mem _ (ih x hx2)
    · rw [if_neg hc] at hx
      by_cases hc2 : c = '\r'
      · rw [if_pos (Or.inr hc2)]
        exact List.mem_cons_of_mem _ (ih x hx)
      · rw [if_neg (fun hor => hor.elim hc hc2)]
        exact ih x hx

theorem lineStarts_subset_Js (l : Str) : ∀ x ∈ lineStarts l, x ∈ lineStartsJs l := by
  intro x hx
  rcases List.mem_cons.mp hx with rfl | hx2
  · exact List.mem_cons_self _ _
  · exact List.mem_cons_of_mem _ (lineStartsAfter_subset_CR l x hx2)

theorem splitCand_parts_of_some {l : Str} {t r : Str}
    (h : termAt (dropRun l) = some (t, r)) : ∃ X, l = X ++ '\n' :: r := by
  obtain ⟨h1, h2⟩ := termAt_eq_parts h
  have hl : l = takeRun l ++ dropRun l := (List.takeWhile_append_dropWhile _ _).symm
  rcases h2 with h3 | h3
  · refine ⟨takeRun l, ?_⟩
    conv_lhs => rw [hl]
    rw [h1, h3]
    simp
  · refine ⟨takeRun l ++ ['\r'], ?_⟩
    conv_lhs => rw [hl]
    rw [h1, h3]
    simp

theorem splitCandF_none : ∀ (fuel : Nat) (l : Str),
    (∀ r ∈ lineStarts l, termAt r = none) → splitCandF fuel l = none := by
  intro fuel
  induction fuel with
  | zero => intro l h; rfl
  | succ f ih =>
    intro l h
    rw [splitCandF]
    simp only [h l (List.mem_cons_self l _)]
    split
    · rfl
    · cases ht : termAt (dropRun l) with
      | none => simp [ht]
      | some p =>
        obtain ⟨t, r⟩ := p
        obtain ⟨X, hX⟩ := splitCand_parts_of_some ht
        have hr : ∀ x ∈ lineStarts r, termAt x = none :=
          fun x hx => h x (lineStarts_after_nl_subset hX x hx)
        simp only [ht, ih r hr]

theorem splitScanF_none : ∀ (fuel : Nat) (l : Str),
    (∀ r ∈ lineStartsJs l, termAt r = none) → splitScanF fuel l = none := by
  intro fuel
  induction fuel with
  | zero => intro l h; rfl
  | succ f ih =>
    intro l h
    rw [splitScanF]
    have hc : splitCand l = none := by
      unfold splitCand
      exact splitCandF_none _ l (fun r hr => h r (lineStarts_subset_Js l r hr))
    simp only [hc]
    cases ha : afterTerm l with
    | none => simp [ha]
    | some r =>
      obtain ⟨X, c, hcor, hX⟩ := afterTerm_parts ha
      simp only [ha]
      exact ih r (fun x hx => h x (lineStartsJs_after_subset hcor hX x hx))

theorem splitMessage_no_blank {l : Str} (h : hasBlankLine l = false) :
    splitMessage l = (l, []) := by
  have hnone : ∀ r ∈ lineStartsJs l, termAt r = none := by
    intro r hr
    unfold hasBlankLine at h
    rw [List.any_eq_false] at h
    have h2 := h r hr
    cases ht : termAt r with
    | none => rfl
    | some p => rw [ht] at h2; simp at h2
  unfold splitMessage splitScan
  rw [splitScanF_none _ l hnone]

theorem takeThroughLastWs_of_ws_end {body : Str} {c : Char}
    (h : body.getLast? = some c) (hc : jsWs c = true) :
    takeThroughLastWs body = body := by
  unfold takeThroughLastWs
  have hrev : body.reverse.head? = some c := by
    rw [List.head?_reverse]
    exact h
  match hb : body.reverse with
  | [] => rw [hb] at hrev; simp at hrev
  | x :: xs =>
    rw [hb] at hrev
    simp only [List.head?_cons, Option.some.injEq] at hrev
    subst hrev
    rw [List.dropWhile_cons]
    simp only [hc, Bool.not_true, if_false, Bool.false_eq_true]
    rw [← hb, List.reverse_reverse]

/-! ## Character and prefix lemmas for the scanners -/

theorem lowerChar_of_not_upper {c : Char} (h : ¬('A' ≤ c ∧ c ≤ 'Z')) :
    lowerChar c = c := by
  unfold lowerChar
  rw [if_neg h]

theorem lowerChar_of_ws {c : Char} (h : jsWs c = true) : lowerChar c = c := by
  unfold jsWs at h
  simp only [Bool.or_eq_true, beq_iff_eq] at h
  rcases h with ((((h | h) | h) | h) | h) | h <;> subst h <;> decide

theorem isTermChar_cases {c : Char} (h : isTermChar c = true) :
    c = '\n' ∨ c = '\r' := by
  unfold isTermChar at h
  simp only [Bool.or_eq_true, beq_iff_eq] at h
  exact h

theorem lowerChar_of_term {c : Char} (h : isTermChar c = true) : lowerChar c = c := by
  rcases isTermChar_cases h with h | h <;> subst h <;> decide

theorem ciStarts_append_term {pat : Str} (hp : ∀ c ∈ pat, isTermChar c = false)
    (content : Str) {T : Str} (hT : goodTerm T) (R : Str) :
    ciStarts pat (content ++ T ++ R) = ciStarts pat content := by
  induction pat generalizing content with
  | nil => rfl
  | cons p ps ih =>
    match content with
    | [] =>
      have hpne : p ≠ '\n' ∧ p ≠ '\r' := by
        have := hp p (List.mem_cons_self p ps)
        unfold isTermChar at this
        simp only [Bool.or_eq_false_iff, beq_eq_false_iff_ne, ne_eq] at this
        exact this
      show ciStarts (p :: ps) (T ++ R) = false
      rcases hT with h | h <;> subst h
      · show (p == lowerChar '\n' && _) = false
        rw [show lowerChar '\n' = '\n' from by decide]
        simp [hpne.1]
      · show (p == lowerChar '\r' && _) = false
        rw [show lowerChar '\r' = '\r' from by decide]
        simp [hpne.2]
    | c :: cs =>
      show (p == lowerChar c && ciStarts ps (cs ++ T ++ R)) =
        (p == lowerChar c && ciStarts ps cs)
      rw [ih (fun x hx => hp x (List.mem_cons_of_mem p hx)) cs]

theorem ciStarts_true_le {pat l : Str} (h : ciStarts pat l = true) :
    pat.length ≤ l.length := by
  induction pat generalizing l with
  | nil => simp
  | cons p ps ih =>
    match l with
    | [] => simp [ciStarts] at h
    | c :: cs =>
      have h2 : ciStarts ps cs = true := by
        have h3 : (p == lowerChar c && ciStarts ps cs) = true := h
        rw [Bool.and_eq_true] at h3
        exact h3.2
      simpa using ih h2

theorem ciStarts_false_of_ws_head {p : Char} {ps : Str} {c : Char} {cs : Str}
    (hp : jsWs p = false) (hc : jsWs c = true) :
    ciStarts (p :: ps) (c :: cs) = false := by
  show (p == lowerChar c && ciStarts ps cs) = false
  rw [lowerChar_of_ws hc]
  have : p ≠ c := fun he => by rw [he] at hp; rw [hp] at hc; exact Bool.false_ne_true hc
  simp [this]

theorem wsRun_append_of_nonws {X : Str} (h : ∃ c ∈ X, jsWs c = false) (R : Str) :
    wsRun (X ++ R) = wsRun X := by
  induction X with
  | nil => obtain ⟨c, hc, -⟩ := h; simp at hc
  | cons x xs ih =>
    unfold wsRun
    rw [List.cons_append, List.takeWhile_cons, List.takeWhile_cons]
    by_cases hx : jsWs x = true
    · simp only [hx, if_true]
      have h2 : ∃ c ∈ xs, jsWs c = false := by
        obtain ⟨c, hc, hcw⟩ := h
        rcases hc with - | hc2
        · rw [hx] at hcw; exact absurd hcw (by simp)
        · exact ⟨c, by assumption, hcw⟩
      rw [← wsRun, ← wsRun, ih h2]
    · simp only [Bool.not_eq_true] at hx
      simp [hx]

theorem take_wsRun_length (l : Str) : l.take (wsRun l).length = wsRun l := by
  have h := List.takeWhile_prefix (l := l) (p := jsWs)
  exact ((List.prefix_iff_eq_take.mp h).symm : _)

theorem optWs_subset (l : Str) : ∀ x ∈ optWs l, x ∈ l := by
  match l with
  | [] => intro x hx; exact hx
  | c :: cs =>
    intro x hx
    simp only [optWs] at hx
    split at hx
    · exact List.mem_cons_of_mem c hx
    · exact hx

theorem optWs_append_cons (y : Char) (ys R : Str) :
    optWs ((y :: ys) ++ R) = optWs (y :: ys) ++ R := by
  unfold optWs
  simp only [List.cons_append]
  split <;> rfl

theorem optWs_term {T : Str} (hT : goodTerm T) (R : Str) :
    optWs (T ++ R) = T ++ R := by
  rcases hT with h | h <;> subst h <;> rfl

/-! ## Behaviour of the first-line removals on structured input -/

theorem removeLineScanF_succ (pat : Str) (fuel : Nat) (st : Bool) (c : Char) (cs : Str) :
    removeLineScanF pat (fuel + 1) st (c :: cs) =
      if st = true ∧ ciStarts pat (c :: cs) = true then
        match termAt (dropRun (optWs ((c :: cs).drop pat.length))) with
        | some (_, rest) => removeLineScanF pat fuel true rest
        | none => c :: removeLineScanF pat fuel (decide (c = '\n')) cs
      else c :: removeLineScanF pat fuel (decide (c = '\n')) cs := rfl

theorem removeLineScanF_fuel (pat : Str) :
    ∀ f1 f2 : Nat, ∀ st (l : Str), l.length < f1 → l.length < f2 →
      removeLineScanF pat f1 st l = removeLineScanF pat f2 st l := by
  intro f1
  induction f1 with
  | zero => intro f2 st l h1 h2; omega
  | succ f ih =>
    intro f2 st l h1 h2
    match f2, l with
    | 0, _ => omega
    | g + 1, [] => rfl
    | g + 1, c :: cs =>
      rw [removeLineScanF_succ, removeLineScanF_succ]
      simp only [List.length_cons] at h1 h2
      by_cases hc : st = true ∧ ciStarts pat (c :: cs) = true
      · rw [if_pos hc, if_pos hc]
        cases ht : termAt (dropRun (optWs ((c :: cs).drop pat.length))) with
        | some p =>
          obtain ⟨t, rest⟩ := p
          have hlen : rest.length < cs.length + 1 := by
            have ha := termAt_length_lt ht
            have hb := dropRun_length_le (optWs ((c :: cs).drop pat.length))
            have hcc := optWs_length_le ((c :: cs).drop pat.length)
            simp only [List.length_drop, List.length_cons] at ha hb hcc
            omega
          show removeLineScanF pat f true rest = removeLineScanF pat g true rest
          exact ih g true rest (by omega) (by omega)
        | none =>
          show c :: removeLineScanF pat f (decide (c = '\n')) cs =
            c :: removeLineScanF pat g (decide (c = '\n')) cs
          rw [ih g (decide (c = '\n')) cs (by omega) (by omega)]
      · rw [if_neg hc, if_neg hc]
        rw [ih g (decide (c = '\n')) cs (by omega) (by omega)]

theorem removeLineScan_cons_nomatch (pat : Str) {st : Bool} (c : Char) (cs : Str)
    (h : ¬(st = true ∧ ciStarts pat (c :: cs) = true)) :
    removeLineScan pat st (c :: cs) = c :: removeLineScan pat (decide (c = '\n')) cs := by
  unfold removeLineScan
  rw [show (c :: cs).length + 1 = cs.length + 1 + 1 from by simp,
    removeLineScanF_succ, if_neg h]

theorem removeLineScan_cons_match (pat : Str) (c : Char) (cs : Str) {t rest : Str}
    (h : ciStarts pat (c :: cs) = true)
    (ht : termAt (dropRun (optWs ((c :: cs).drop pat.length))) = some (t, rest)) :
    removeLineScan pat true (c :: cs) = removeLineScan pat true rest := by
  unfold removeLineScan
  rw [show (c :: cs).length + 1 = cs.length + 1 + 1 from by simp,
    removeLineScanF_succ, if_pos ⟨rfl, h⟩, ht]
  have hlen : rest.length < cs.length + 1 := by
    have ha := termAt_length_lt ht
    have hb := dropRun_length_le (optWs ((c :: cs).drop pat.length))
    have hcc := optWs_length_le ((c :: cs).drop pat.length)
    simp only [List.length_drop, List.length_cons] at ha hb hcc
    omega
  show removeLineScanF pat (cs.length + 1) true rest = _
  exact removeLineScanF_fuel pat (cs.length + 1) (rest.length + 1) true rest
    (by omega) (Nat.lt_succ_self _)

theorem removeLineScan_copy_term (pat : Str) {T : Str} (hT : goodTerm T) (R : Str) :
    removeLineScan pat false (T ++ R) = T ++ removeLineScan pat true R := by
  rcases hT with h | h <;> subst h
  · rw [show (['\n'] ++ R : Str) = '\n' :: R from rfl,
      removeLineScan_cons_nomatch pat '\n' R (by simp)]
    simp
  · rw [show (['\r', '\n'] ++ R : Str) = '\r' :: ('\n' :: R) from rfl,
      removeLineScan_cons_nomatch pat '\r' ('\n' :: R) (by simp),
      removeLineScan_cons_nomatch pat '\n' R (by simp)]
    simp

theorem removeLineScan_copy_run (pat : Str) :
    ∀ (X : Str), (∀ c ∈ X, isTermChar c = false) → ∀ {T : Str}, goodTerm T → ∀ (R : Str),
      removeLineScan pat false (X ++ T ++ R) = X ++ T ++ removeLineScan pat true R := by
  intro X
  induction X with
  | nil =>
    intro h T hT R
    simpa using removeLineScan_copy_term pat hT R
  | cons c cs ih =>
    intro h T hT R
    have hc := h c (List.mem_cons_self c cs)
    have hcn : decide (c = '\n') = false := by
      unfold isTermChar at hc
      simp only [Bool.or_eq_false_iff, beq_eq_false_iff_ne, ne_eq] at hc
      simpa using hc.1
    rw [List.cons_append, List.cons_append,
      removeLineScan_cons_nomatch pat c (cs ++ T ++ R) (by simp), hcn,
      ih (fun x hx => h x (List.mem_cons_of_mem c hx)) hT R]
    simp

theorem removeLineScan_line_nomatch (pat : Str) {ln : HLine} (hwf : lineWF ln)
    (hpat : ∀ c ∈ pat, isTermChar c = false)
    (hm : ciStarts pat ln.content = false) (R : Str) :
    removeLineScan pat true (renderL ln ++ R) = renderL ln ++ removeLineScan pat true R := by
  obtain ⟨hne, hnt, hterm⟩ := hwf
  obtain ⟨c, cs, hcontent⟩ := List.exists_cons_of_ne_nil hne
  have hshape : renderL ln ++ R = c :: (cs ++ ln.term ++ R) := by
    unfold renderL
    rw [hcontent]
    simp [List.append_assoc]
  have hci : ciStarts pat (c :: (cs ++ ln.term ++ R)) = false := by
    have h1 := ciStarts_append_term hpat ln.content hterm R
    rw [hcontent] at h1
    rw [show c :: (cs ++ ln.term ++ R) = (c :: cs) ++ ln.term ++ R from by simp, h1, ← hcontent]
    exact hm
  have hcn : decide (c = '\n') = false := by
    have hc := hnt c (by rw [hcontent]; exact List.mem_cons_self c cs)
    unfold isTermChar at hc
    simp only [Bool.or_eq_false_iff, beq_eq_false_iff_ne, ne_eq] at hc
    simpa using hc.1
  rw [hshape, removeLineScan_cons_nomatch pat c _ (by rw [hci]; simp), hcn,
    removeLineScan_copy_run pat cs
      (fun x hx => hnt x (by rw [hcontent]; exact List.mem_cons_of_mem c hx)) hterm R]
  unfold renderL
  rw [hcontent]
  simp [List.append_assoc]

theorem removeLineScan_line_match (pat : Str) {ln : HLine} (hwf : lineWF ln)
    (hpat : ∀ c ∈ pat, isTermChar c = false)
    (hm : ciStarts pat ln.content = true) (R : Str) :
    removeLineScan pat true (renderL ln ++ R) = removeLineScan pat true R := by
  obtain ⟨hne, hnt, hterm⟩ := hwf
  obtain ⟨c, cs, hcontent⟩ := List.exists_cons_of_ne_nil hne
  have hshape : renderL ln ++ R = c :: (cs ++ (ln.term ++ R)) := by
    unfold renderL
    rw [hcontent]
    simp [List.append_assoc]
  have hci : ciStarts pat (c :: (cs ++ (ln.term ++ R))) = true := by
    have h1 := ciStarts_append_term hpat ln.content hterm R
    rw [show c :: (cs ++ (ln.term ++ R)) = ln.content ++ ln.term ++ R from by
      rw [hcontent]; simp [List.append_assoc], h1]
    exact hm
  have hple : pat.length ≤ ln.content.length := by
    have := ciStarts_true_le hm
    exact this
  have hdrop : (c :: (cs ++ (ln.term ++ R))).drop pat.length =
      ln.content.drop pat.length ++ (ln.term ++ R) := by
    rw [show c :: (cs ++ (ln.term ++ R)) = ln.content ++ (ln.term ++ R) from by
      rw [hcontent]; simp]
    exact List.drop_append_of_le_length hple
  have hward : dropRun (optWs ((c :: (cs ++ (ln.term ++ R))).drop pat.length)) =
      ln.term ++ R := by
    rw [hdrop]
    have hsub : ∀ x ∈ ln.content.drop pat.length, isTermChar x = false :=
      fun x hx => hnt x (List.drop_subset _ _ hx)
    match hY : ln.content.drop pat.length with
    | [] =>
      rw [List.nil_append, optWs_term hterm]
      rcases hterm with h | h <;> rw [h] <;> rfl
    | y :: ys =>
      rw [optWs_append_cons]
      have hsub2 : ∀ x ∈ optWs (y :: ys), isTermChar x = false := by
        intro x hx
        apply hsub
        rw [hY]
        exact optWs_subset _ x hx
      rw [dropRun_append hsub2]
      rcases hterm with h | h <;> rw [h] <;> rfl
  have htermAt : termAt (dropRun (optWs ((c :: (cs ++ (ln.term ++ R))).drop pat.length))) =
      some (ln.term, R) := by
    rw [hward]
    exact termAt_goodTerm hterm R
  rw [hshape, removeLineScan_cons_match pat c _ hci htermAt]

/-- The first-line removal on a rendered well-formed line list acts
line-by-line: a line whose content matches the pattern is removed (its
terminator included, its folded continuations untouched — they are
separate non-matching lines), every other line is copied. -/
theorem removeLineScan_structured (pat : Str)
    (hpat : ∀ c ∈ pat, isTermChar c = false) :
    ∀ ls : List HLine, (∀ ln ∈ ls, lineWF ln) →
      removeLineScan pat true (renderLs ls) = (ls.map (removeLineL pat)).join := by
  intro ls
  induction ls with
  | nil => intro h2; rfl
  | cons ln rest ih =>
    intro hwf
    have hwl := hwf ln (List.mem_cons_self ln rest)
    have hrest := fun x hx => hwf x (List.mem_cons_of_mem ln hx)
    rw [renderLs_cons]
    cases hm : ciStarts pat ln.content with
    | false =>
      rw [removeLineScan_line_nomatch pat hwl hpat hm, ih hrest]
      simp [removeLineL, hm]
    | true =>
      rw [removeLineScan_line_match pat hwl hpat hm, ih hrest]
      simp [removeLineL, hm]

/-! ## Behaviour of the DKIM removal on structured input -/

theorem wsRun_def (l : Str) : wsRun l = l.takeWhile jsWs := rfl

theorem drop_takeWhile_length (p : Char → Bool) : ∀ l : Str,
    l.drop (l.takeWhile p).length = l.dropWhile p := by
  intro l
  induction l with
  | nil => rfl
  | cons c cs ih =>
    rw [List.takeWhile_cons, List.dropWhile_cons]
    by_cases h : p c = true
    · simp only [h, if_true]
      simpa using ih
    · simp only [h, Bool.false_eq_true, if_false]
      simp

theorem contStarF_succ (fuel : Nat) (l : Str) :
    contStarF (fuel + 1) l =
      match contIters l (wsRun l).length with
      | some (c1, rest) =>
        match contStarF fuel rest with
        | (c2, r2) => (c1 ++ c2, r2)
      | none => ([], l) := rfl

theorem contIters_succ (m1 : Str) (i : Nat) :
    contIters m1 (i + 1) =
      match termAt (dropRun (m1.drop (i + 1))) with
      | some (t, rest) =>
        some (m1.take (i + 1) ++ takeRun (m1.drop (i + 1)) ++ t, rest)
      | none => contIters m1 i := rfl

theorem contStarF_rest_le : ∀ (fuel : Nat) (l : Str),
    (contStarF fuel l).2.length ≤ l.length := by
  intro fuel
  induction fuel with
  | zero => intro l; exact le_rfl
  | succ f ih =>
    intro l
    rw [contStarF_succ]
    cases h : contIters l (wsRun l).length with
    | none => exact le_rfl
    | some p =>
      obtain ⟨c1, rest⟩ := p
      have h1 := contIters_rest_lt h
      have h2 := ih rest
      show (match contStarF f rest with | (c2, r2) => (c1 ++ c2, r2)).2.length ≤ l.length
      cases hc : contStarF f rest with
      | mk c2 r2 =>
        rw [hc] at h2
        have h3 : r2.length ≤ rest.length := h2
        show r2.length ≤ l.length
        omega

theorem contStarF_fuel : ∀ f1 f2 : Nat, ∀ l : Str, l.length < f1 → l.length < f2 →
    contStarF f1 l = contStarF f2 l := by
  intro f1
  induction f1 with
  | zero => intro f2 l h1 h2; omega
  | succ f ih =>
    intro f2 l h1 h2
    match f2 with
    | 0 => omega
    | g + 1 =>
      rw [contStarF_succ, contStarF_succ]
      cases h : contIters l (wsRun l).length with
      | none => rfl
      | some p =>
        obtain ⟨c1, rest⟩ := p
        have hlt := contIters_rest_lt h
        show (match contStarF f rest with | (c2, r2) => (c1 ++ c2, r2)) =
          (match contStarF g rest with | (c2, r2) => (c1 ++ c2, r2))
        rw [ih g rest (by omega) (by omega)]

theorem wsRun_eq_nil_of_startsWs_false {R : Str} (h : startsWs R = false) :
    wsRun R = [] := by
  match R with
  | [] => rfl
  | c :: cs =>
    simp only [startsWs] at h
    unfold wsRun
    rw [List.takeWhile_cons]
    simp [h]

theorem contStar_of_startsWs_false {R : Str} (h : startsWs R = false) :
    contStar R = ([], R) := by
  unfold contStar
  match R with
  | [] => rfl
  | c :: cs =>
    rw [contStarF_succ, wsRun_eq_nil_of_startsWs_false h]
    rfl

theorem renderL_eq (ln : HLine) (X : Str) :
    renderL ln ++ X = ln.content ++ (ln.term ++ X) := by
  unfold renderL
  simp [List.append_assoc]

theorem contIters_structured (ln : HLine) (hwf : lineWF ln)
    (hws : startsWs ln.content = true) (hnws : ∃ c ∈ ln.content, jsWs c = false)
    (X : Str) :
    contIters (renderL ln ++ X) (wsRun (renderL ln ++ X)).length =
      some (renderL ln, X) := by
  obtain ⟨hne, hnt, hterm⟩ := hwf
  have hl := renderL_eq ln X
  have hwsl : wsRun (renderL ln ++ X) = wsRun ln.content := by
    rw [hl]
    exact wsRun_append_of_nonws hnws _
  have hk : 1 ≤ (wsRun ln.content).length := by
    obtain ⟨c, cs, hcontent⟩ := List.exists_cons_of_ne_nil hne
    have hc : jsWs c = true := by
      rw [hcontent] at hws
      simpa [startsWs] using hws
    rw [hcontent, wsRun_def, List.takeWhile_cons]
    simp [hc]
  obtain ⟨j, hj⟩ : ∃ j, (wsRun ln.content).length = j + 1 :=
    ⟨(wsRun ln.content).length - 1, by omega⟩
  rw [hwsl, hj]
  have hkle : (wsRun ln.content).length ≤ ln.content.length := wsRun_length_le _
  have hdropk : (renderL ln ++ X).drop (j + 1) =
      ln.content.dropWhile jsWs ++ (ln.term ++ X) := by
    rw [hl, ← hj, List.drop_append_of_le_length hkle]
    congr 1
    exact drop_takeWhile_length jsWs ln.content
  have hrestnt : ∀ c ∈ ln.content.dropWhile jsWs, isTermChar c = false :=
    fun c hc => hnt c (List.dropWhile_sublist _ |>.subset hc)
  rw [contIters_succ, hdropk]
  have htr : takeRun (ln.content.dropWhile jsWs ++ (ln.term ++ X)) =
      ln.content.dropWhile jsWs := by
    rw [takeRun_append hrestnt]
    have h0 : takeRun (ln.term ++ X) = [] := by
      rcases hterm with h | h <;> rw [h] <;> rfl
    rw [h0, List.append_nil]
  have hdr : dropRun (ln.content.dropWhile jsWs ++ (ln.term ++ X)) = ln.term ++ X := by
    rw [dropRun_append hrestnt]
    rcases hterm with h | h <;> rw [h] <;> rfl
  rw [hdr, termAt_goodTerm hterm, htr]
  have htake : (renderL ln ++ X).take (j + 1) = wsRun ln.content := by
    rw [hl, ← hj, List.take_append_of_le_length hkle]
    exact take_wsRun_length ln.content
  rw [htake]
  have hfinal : wsRun ln.content ++ ln.content.dropWhile jsWs ++ ln.term = renderL ln := by
    unfold renderL
    congr 1
    rw [wsRun_def]
    exact List.takeWhile_append_dropWhile jsWs ln.content
  show some (wsRun ln.content ++ ln.content.dropWhile jsWs ++ ln.term, X) =
    some (renderL ln, X)
  rw [hfinal]

theorem contStar_structured :
    ∀ (conts : List HLine) (R : Str),
      (∀ ln ∈ conts, lineWF ln ∧ startsWs ln.content = true ∧
        ∃ c ∈ ln.content, jsWs c = false) →
      startsWs R = false →
      contStar (renderLs conts ++ R) = (renderLs conts, R) := by
  intro conts
  induction conts with
  | nil =>
    intro R hwf hR
    have h0 : renderLs [] = ([] : Str) := rfl
    rw [h0, List.nil_append]
    exact contStar_of_startsWs_false hR
  | cons ln rest ih =>
    intro R hwf hR
    obtain ⟨hwl, hws, hnws⟩ := hwf ln (List.mem_cons_self ln rest)
    have hrest := fun x hx => hwf x (List.mem_cons_of_mem ln hx)
    rw [renderLs_cons, List.append_assoc]
    have hlens : (renderL ln ++ (renderLs rest ++ R)).length =
        ln.content.length + ln.term.length + (renderLs rest ++ R).length := by
      unfold renderL
      simp
      omega
    have hc1 : 1 ≤ ln.content.length := by
      obtain ⟨c, cs, hc⟩ := List.exists_cons_of_ne_nil hwl.1
      rw [hc]; simp
    have ht1 : 1 ≤ ln.term.length := by
      rcases hwl.2.2 with h | h <;> simp [h]
    unfold contStar
    rw [contStarF_succ, contIters_structured ln hwl hws hnws (renderLs rest ++ R)]
    have hfuel : (renderLs rest ++ R).length <
        (renderL ln ++ (renderLs rest ++ R)).length := by omega
    have hrec : contStarF (renderL ln ++ (renderLs rest ++ R)).length
        (renderLs rest ++ R) = (renderLs rest, R) := by
      rw [contStarF_fuel _ ((renderLs rest ++ R).length + 1) _ hfuel (Nat.lt_succ_self _)]
      exact ih R hrest hR
    show (match contStarF (renderL ln ++ (renderLs rest ++ R)).length
        (renderLs rest ++ R) with
      | (c2, r2) => (renderL ln ++ c2, r2)) = (renderL ln ++ renderLs rest, R)
    rw [hrec]

/-! ## The DKIM scan on structured input -/

theorem removeDkimScanF_succ (fuel : Nat) (st : Bool) (c : Char) (cs : Str) :
    removeDkimScanF (fuel + 1) st (c :: cs) =
      if st = true ∧ ciStarts ("dkim-signature:".data) (c :: cs) = true then
        match termAt (dropRun (optWs ((c :: cs).drop 15))) with
        | some (_, r1) => removeDkimScanF fuel true (contStar r1).2
        | none => c :: removeDkimScanF fuel (decide (c = '\n')) cs
      else c :: removeDkimScanF fuel (decide (c = '\n')) cs := rfl

theorem removeDkimScanF_fuel :
    ∀ f1 f2 : Nat, ∀ st (l : Str), l.length < f1 → l.length < f2 →
      removeDkimScanF f1 st l = removeDkimScanF f2 st l := by
  intro f1
  induction f1 with
  | zero => intro f2 st l h1 h2; omega
  | succ f ih =>
    intro f2 st l h1 h2
    match f2, l with
    | 0, _ => omega
    | g + 1, [] => rfl
    | g + 1, c :: cs =>
      rw [removeDkimScanF_succ, removeDkimScanF_succ]
      simp only [List.length_cons] at h1 h2
      by_cases hc : st = true ∧ ciStarts ("dkim-signature:".data) (c :: cs) = true
      · rw [if_pos hc, if_pos hc]
        cases ht : termAt (dropRun (optWs ((c :: cs).drop 15))) with
        | some p =>
          obtain ⟨t, r1⟩ := p
          have hlen : (contStar r1).2.length < cs.length + 1 := by
            have ha := termAt_length_lt ht
            have hb := dropRun_length_le (optWs ((c :: cs).drop 15))
            have hcc := optWs_length_le ((c :: cs).drop 15)
            have hd := contStarF_rest_le (r1.length + 1) r1
            simp only [List.length_drop, List.length_cons] at ha hb hcc
            show (contStarF (r1.length + 1) r1).2.length < cs.length + 1
            omega
          show removeDkimScanF f true (contStar r1).2 =
            removeDkimScanF g true (contStar r1).2
          exact ih g true (contStar r1).2 (by omega) (by omega)
        | none =>
          show c :: removeDkimScanF f (decide (c = '\n')) cs =
            c :: removeDkimScanF g (decide (c = '\n')) cs
          rw [ih g (decide (c = '\n')) cs (by omega) (by omega)]
      · rw [if_neg hc, if_neg hc]
        rw [ih g (decide (c = '\n')) cs (by omega) (by omega)]

theorem removeDkimScan_cons_nomatch {st : Bool} (c : Char) (cs : Str)
    (h : ¬(st = true ∧ ciStarts ("dkim-signature:".data) (c :: cs) = true)) :
    removeDkimScan st (c :: cs) = c :: removeDkimScan (decide (c = '\n')) cs := by
  unfold removeDkimScan
  rw [show (c :: cs).length + 1 = cs.length + 1 + 1 from by simp,
    removeDkimScanF_succ, if_neg h]

theorem removeDkimScan_cons_match (c : Char) (cs : Str) {t r1 : Str}
    (h : ciStarts ("dkim-signature:".data) (c :: cs) = true)
    (ht : termAt (dropRun (optWs ((c :: cs).drop 15))) = some (t, r1)) :
    removeDkimScan true (c :: cs) = removeDkimScan true (contStar r1).2 := by
  unfold removeDkimScan
  rw [show (c :: cs).length + 1 = cs.length + 1 + 1 from by simp,
    removeDkimScanF_succ, if_pos ⟨rfl, h⟩, ht]
  have hlen : (contStar r1).2.length < cs.length + 1 := by
    have ha := termAt_length_lt ht
    have hb := dropRun_length_le (optWs ((c :: cs).drop 15))
    have hcc := optWs_length_le ((c :: cs).drop 15)
    have hd := contStarF_rest_le (r1.length + 1) r1
    simp only [List.length_drop, List.length_cons] at ha hb hcc
    show (contStarF (r1.length + 1) r1).2.length < cs.length + 1
    omega
  show removeDkimScanF (cs.length + 1) true (contStar r1).2 = _
  exact removeDkimScanF_fuel (cs.length + 1) ((contStar r1).2.length + 1) true _
    (by omega) (Nat.lt_succ_self _)

theorem removeDkimScan_copy_term {T : Str} (hT : goodTerm T) (R : Str) :
    removeDkimScan false (T ++ R) = T ++ removeDkimScan true R := by
  rcases hT with h | h <;> subst h
  · rw [show (['\n'] ++ R : Str) = '\n' :: R from rfl,
      removeDkimScan_cons_nomatch '\n' R (by simp)]
    simp
  · rw [show (['\r', '\n'] ++ R : Str) = '\r' :: ('\n' :: R) from rfl,
      removeDkimScan_cons_nomatch '\r' ('\n' :: R) (by simp),
      removeDkimScan_cons_nomatch '\n' R (by simp)]
    simp

theorem removeDkimScan_copy_run :
    ∀ (X : Str), (∀ c ∈ X, isTermChar c = false) → ∀ {T : Str}, goodTerm T → ∀ (R : Str),
      removeDkimScan false (X ++ T ++ R) = X ++ T ++ removeDkimScan true R := by
  intro X
  induction X with
  | nil =>
    intro h T hT R
    simpa using removeDkimScan_copy_term hT R
  | cons c cs ih =>
    intro h T hT R
    have hc := h c (List.mem_cons_self c cs)
    have hcn : decide (c = '\n') = false := by
      unfold isTermChar at hc
      simp only [Bool.or_eq_false_iff, beq_eq_false_iff_ne, ne_eq] at hc
      simpa using hc.1
    rw [List.cons_append, List.cons_append,
      removeDkimScan_cons_nomatch c (cs ++ T ++ R) (by simp), hcn,
      ih (fun x hx => h x (List.mem_cons_of_mem c hx)) hT R]
    simp

theorem removeDkimScan_line_nomatch {ln : HLine} (hwf : lineWF ln)
    (hm : ciStarts ("dkim-signature:".data) ln.content = false) (R : Str) :
    removeDkimScan true (renderL ln ++ R) = renderL ln ++ removeDkimScan true R := by
  obtain ⟨hne, hnt, hterm⟩ := hwf
  obtain ⟨c, cs, hcontent⟩ := List.exists_cons_of_ne_nil hne
  have hpat : ∀ x ∈ ("dkim-signature:".data : Str), isTermChar x = false := by decide
  have hshape : renderL ln ++ R = c :: (cs ++ ln.term ++ R) := by
    unfold renderL
    rw [hcontent]
    simp [List.append_assoc]
  have hci : ciStarts ("dkim-signature:".data) (c :: (cs ++ ln.term ++ R)) = false := by
    have h1 := ciStarts_append_term hpat ln.content hterm R
    rw [hcontent] at h1
    rw [show c :: (cs ++ ln.term ++ R) = (c :: cs) ++ ln.term ++ R from by simp, h1, ← hcontent]
    exact hm
  have hcn : decide (c = '\n') = false := by
    have hc := hnt c (by rw [hcontent]; exact List.mem_cons_self c cs)
    unfold isTermChar at hc
    simp only [Bool.or_eq_false_iff, beq_eq_false_iff_ne, ne_eq] at hc
    simpa using hc.1
  rw [hshape, removeDkimScan_cons_nomatch c _ (by rw [hci]; simp), hcn,
    removeDkimScan_copy_run cs
      (fun x hx => hnt x (by rw [hcontent]; exact List.mem_cons_of_mem c hx)) hterm R]
  unfold renderL
  rw [hcontent]
  simp [List.append_assoc]

theorem removeDkimScan_conts :
    ∀ (conts : List HLine), (∀ ln ∈ conts, lineWF ln ∧ startsWs ln.content = true ∧
      ∃ c ∈ ln.content, jsWs c = false) → ∀ (R : Str),
      removeDkimScan true (renderLs conts ++ R) =
        renderLs conts ++ removeDkimScan true R := by
  intro conts
  induction conts with
  | nil => intro h R; simp [renderLs]
  | cons ln rest ih =>
    intro hwf R
    obtain ⟨hwl, hws, -⟩ := hwf ln (List.mem_cons_self ln rest)
    have hm : ciStarts ("dkim-signature:".data) ln.content = false := by
      obtain ⟨c, cs, hcontent⟩ := List.exists_cons_of_ne_nil hwl.1
      have hcw : jsWs c = true := by
        rw [hcontent] at hws
        simpa [startsWs] using hws
      rw [hcontent, show ("dkim-signature:".data : Str) = 'd' :: "kim-signature:".data
        from by decide]
      exact ciStarts_false_of_ws_head (by decide) hcw
    rw [renderLs_cons, List.append_assoc, removeDkimScan_line_nomatch hwl hm,
      ih (fun x hx => hwf x (List.mem_cons_of_mem ln hx)) R]
    simp [List.append_assoc]

theorem removeDkimScan_block_nomatch {b : HBlock} (hwf : blockWF b)
    (hm : ciStarts ("dkim-signature:".data) b.first.content = false) (R : Str) :
    removeDkimScan true (renderB b ++ R) = renderB b ++ removeDkimScan true R := by
  obtain ⟨hf, -, -, hcs⟩ := hwf
  unfold renderB
  rw [List.append_assoc, removeDkimScan_line_nomatch hf hm,
    removeDkimScan_conts b.conts hcs R]
  simp [List.append_assoc]

theorem removeDkimScan_block_match {b : HBlock} (hwf : blockWF b)
    (hm : ciStarts ("dkim-signature:".data) b.first.content = true) {R : Str}
    (hR : startsWs R = false) :
    removeDkimScan true (renderB b ++ R) = removeDkimScan true R := by
  obtain ⟨⟨hne, hnt, hterm⟩, -, -, hcs⟩ := hwf
  obtain ⟨c, cs, hcontent⟩ := List.exists_cons_of_ne_nil hne
  have hpat : ∀ x ∈ ("dkim-signature:".data : Str), isTermChar x = false := by decide
  have hshape : renderB b ++ R =
      c :: (cs ++ (b.first.term ++ (renderLs b.conts ++ R))) := by
    unfold renderB renderL
    rw [hcontent]
    simp [List.append_assoc]
  have hci : ciStarts ("dkim-signature:".data)
      (c :: (cs ++ (b.first.term ++ (renderLs b.conts ++ R)))) = true := by
    have h1 := ciStarts_append_term hpat b.first.content hterm (renderLs b.conts ++ R)
    rw [show c :: (cs ++ (b.first.term ++ (renderLs b.conts ++ R))) =
      b.first.content ++ b.first.term ++ (renderLs b.conts ++ R) from by
      rw [hcontent]; simp [List.append_assoc], h1]
    exact hm
  have hple : 15 ≤ b.first.content.length := by
    have h15 : ("dkim-signature:".data : Str).length = 15 := by decide
    have := ciStarts_true_le hm
    omega
  have hdrop : (c :: (cs ++ (b.first.term ++ (renderLs b.conts ++ R)))).drop 15 =
      b.first.content.drop 15 ++ (b.first.term ++ (renderLs b.conts ++ R)) := by
    rw [show c :: (cs ++ (b.first.term ++ (renderLs b.conts ++ R))) =
      b.first.content ++ (b.first.term ++ (renderLs b.conts ++ R)) from by
      rw [hcontent]; simp]
    exact List.drop_append_of_le_length hple
  have hward : dropRun (optWs ((c :: (cs ++ (b.first.term ++
      (renderLs b.conts ++ R)))).drop 15)) =
      b.first.term ++ (renderLs b.conts ++ R) := by
    rw [hdrop]
    have hsub : ∀ x ∈ b.first.content.drop 15, isTermChar x = false :=
      fun x hx => hnt x (List.drop_subset _ _ hx)
    match hY : b.first.content.drop 15 with
    | [] =>
      rw [List.nil_append, optWs_term hterm]
      rcases hterm with h | h <;> rw [h] <;> rfl
    | y :: ys =>
      rw [optWs_append_cons]
      have hsub2 : ∀ x ∈ optWs (y :: ys), isTermChar x = false := by
        intro x hx
        apply hsub
        rw [hY]
        exact optWs_subset _ x hx
      rw [dropRun_append hsub2]
      rcases hterm with h | h <;> rw [h] <;> rfl
  have htermAt : termAt (dropRun (optWs ((c :: (cs ++ (b.first.term ++
      (renderLs b.conts ++ R)))).drop 15))) =
      some (b.first.term, renderLs b.conts ++ R) := by
    rw [hward]
    exact termAt_goodTerm hterm (renderLs b.conts ++ R)
  rw [hshape, removeDkimScan_cons_match c _ hci htermAt,
    contStar_structured b.conts R hcs hR]

theorem renderBs_cons (b : HBlock) (bs : List HBlock) :
    renderBs (b :: bs) = renderB b ++ renderBs bs := by
  simp [renderBs]

theorem startsWs_renderBs : ∀ bs : List HBlock, (∀ b ∈ bs, blockWF b) →
    startsWs (renderBs bs) = false := by
  intro bs h
  match bs with
  | [] => rfl
  | b :: rest =>
    obtain ⟨hf, hws, -, -⟩ := h b (List.mem_cons_self b rest)
    obtain ⟨c, cs, hcontent⟩ := List.exists_cons_of_ne_nil hf.1
    have hcw : jsWs c = false := by
      rw [hcontent] at hws
      simpa [startsWs] using hws
    rw [renderBs_cons]
    unfold renderB renderL
    rw [hcontent]
    simp [startsWs, hcw]

/-- The DKIM removal on a rendered well-formed block list acts
block-by-block: a folded header whose first line matches
`dkim-signature:` disappears in full — continuation lines included —
and every other block is copied. -/
theorem removeDkimScan_structured :
    ∀ bs : List HBlock, (∀ b ∈ bs, blockWF b) →
      removeDkimScan true (renderBs bs) = (bs.map removeDkimB).join := by
  intro bs
  induction bs with
  | nil => intro h; rfl
  | cons b rest ih =>
    intro hwf
    have hwb := hwf b (List.mem_cons_self b rest)
    have hrest := fun x hx => hwf x (List.mem_cons_of_mem b hx)
    have hR : startsWs (renderBs rest) = false := startsWs_renderBs rest hrest
    rw [renderBs_cons]
    cases hm : ciStarts ("dkim-signature:".data) b.first.content with
    | false =>
      rw [removeDkimScan_block_nomatch hwb hm, ih hrest]
      simp [removeDkimB, hm]
    | true =>
      rw [removeDkimScan_block_match hwb hm hR, ih hrest]
      simp [removeDkimB, hm]

/-! ## The subject-prefix replacement on structured input -/

theorem replaceSubjectScanF_succ (p : Str) (fuel : Nat) (st : Bool) (c : Char) (cs : Str) :
    replaceSubjectScanF p (fuel + 1) st (c :: cs) =
      if st = true ∧ ciStarts ("subject:".data) (c :: cs) = true then
        ("Subject: ".data ++ p ++ takeRun (optWs ((c :: cs).drop 8))) ++
          replaceSubjectScanF p fuel false (dropRun (optWs ((c :: cs).drop 8)))
      else c :: replaceSubjectScanF p fuel (decide (c = '\n')) cs := rfl

theorem replaceSubjectScanF_fuel (p : Str) :
    ∀ f1 f2 : Nat, ∀ st (l : Str), l.length < f1 → l.length < f2 →
      replaceSubjectScanF p f1 st l = replaceSubjectScanF p f2 st l := by
  intro f1
  induction f1 with
  | zero => intro f2 st l h1 h2; omega
  | succ f ih =>
    intro f2 st l h1 h2
    match f2, l with
    | 0, _ => omega
    | g + 1, [] => rfl
    | g + 1, c :: cs =>
      rw [replaceSubjectScanF_succ, replaceSubjectScanF_succ]
      simp only [List.length_cons] at h1 h2
      by_cases hc : st = true ∧ ciStarts ("subject:".data) (c :: cs) = true
      · rw [if_pos hc, if_pos hc]
        have hlen : (dropRun (optWs ((c :: cs).drop 8))).length < cs.length + 1 := by
          have hb := dropRun_length_le (optWs ((c :: cs).drop 8))
          have hcc := optWs_length_le ((c :: cs).drop 8)
          simp only [List.length_drop, List.length_cons] at hb hcc
          omega
        rw [ih g false (dropRun (optWs ((c :: cs).drop 8))) (by omega) (by omega)]
      · rw [if_neg hc, if_neg hc]
        rw [ih g (decide (c = '\n')) cs (by omega) (by omega)]

theorem replaceSubjectScan_cons_nomatch (p : Str) {st : Bool} (c : Char) (cs : Str)
    (h : ¬(st = true ∧ ciStarts ("subject:".data) (c :: cs) = true)) :
    replaceSubjectScan p st (c :: cs) =
      c :: replaceSubjectScan p (decide (c = '\n')) cs := by
  unfold replaceSubjectScan
  rw [show (c :: cs).length + 1 = cs.length + 1 + 1 from by simp,
    replaceSubjectScanF_succ, if_neg h]

theorem replaceSubjectScan_cons_match (p : Str) (c : Char) (cs : Str)
    (h : ciStarts ("subject:".data) (c :: cs) = true) :
    replaceSubjectScan p true (c :: cs) =
      ("Subject: ".data ++ p ++ takeRun (optWs ((c :: cs).drop 8))) ++
        replaceSubjectScan p false (dropRun (optWs ((c :: cs).drop 8))) := by
  unfold replaceSubjectScan
  rw [show (c :: cs).length + 1 = cs.length + 1 + 1 from by simp,
    replaceSubjectScanF_succ, if_pos ⟨rfl, h⟩]
  have hlen : (dropRun (optWs ((c :: cs).drop 8))).length < cs.length + 1 := by
    have hb := dropRun_length_le (optWs ((c :: cs).drop 8))
    have hcc := optWs_length_le ((c :: cs).drop 8)
    simp only [List.length_drop, List.length_cons] at hb hcc
    omega
  rw [replaceSubjectScanF_fuel p (cs.length + 1)
    ((dropRun (optWs ((c :: cs).drop 8))).length + 1) false _ (by omega)
    (Nat.lt_succ_self _)]

theorem replaceSubjectScan_copy_term (p : Str) {T : Str} (hT : goodTerm T) (R : Str) :
    replaceSubjectScan p false (T ++ R) = T ++ replaceSubjectScan p true R := by
  rcases hT with h | h <;> subst h
  · rw [show (['\n'] ++ R : Str) = '\n' :: R from rfl,
      replaceSubjectScan_cons_nomatch p '\n' R (by simp)]
    simp
  · rw [show (['\r', '\n'] ++ R : Str) = '\r' :: ('\n' :: R) from rfl,
      replaceSubjectScan_cons_nomatch p '\r' ('\n' :: R) (by simp),
      replaceSubjectScan_cons_nomatch p '\n' R (by simp)]
    simp

theorem replaceSubjectScan_copy_run (p : Str) :
    ∀ (X : Str), (∀ c ∈ X, isTermChar c = false) → ∀ {T : Str}, goodTerm T → ∀ (R : Str),
      replaceSubjectScan p false (X ++ T ++ R) = X ++ T ++ replaceSubjectScan p true R := by
  intro X
  induction X with
  | nil =>
    intro h T hT R
    simpa using replaceSubjectScan_copy_term p hT R
  | cons c cs ih =>
    intro h T hT R
    have hc := h c (List.mem_cons_self c cs)
    have hcn : decide (c = '\n') = false := by
      unfold isTermChar at hc
      simp only [Bool.or_eq_false_iff, beq_eq_false_iff_ne, ne_eq] at hc
      simpa using hc.1
    rw [List.cons_append, List.cons_append,
      replaceSubjectScan_cons_nomatch p c (cs ++ T ++ R) (by simp), hcn,
      ih (fun x hx => h x (List.mem_cons_of_mem c hx)) hT R]
    simp

theorem replaceSubjectScan_line_nomatch (p : Str) {ln : HLine} (hwf : lineWF ln)
    (hm : ciStarts ("subject:".data) ln.content = false) (R : Str) :
    replaceSubjectScan p true (renderL ln ++ R) =
      renderL ln ++ replaceSubjectScan p true R := by
  obtain ⟨hne, hnt, hterm⟩ := hwf
  obtain ⟨c, cs, hcontent⟩ := List.exists_cons_of_ne_nil hne
  have hpat : ∀ x ∈ ("subject:".data : Str), isTermChar x = false := by decide
  have hshape : renderL ln ++ R = c :: (cs ++ ln.term ++ R) := by
    unfold renderL
    rw [hcontent]
    simp [List.append_assoc]
  have hci : ciStarts ("subject:".data) (c :: (cs ++ ln.term ++ R)) = false := by
    have h1 := ciStarts_append_term hpat ln.content hterm R
    rw [hcontent] at h1
    rw [show c :: (cs ++ ln.term ++ R) = (c :: cs) ++ ln.term ++ R from by simp, h1,
      ← hcontent]
    exact hm
  have hcn : decide (c = '\n') = false := by
    have hc := hnt c (by rw [hcontent]; exact List.mem_cons_self c cs)
    unfold isTermChar at hc
    simp only [Bool.or_eq_false_iff, beq_eq_false_iff_ne, ne_eq] at hc
    simpa using hc.1
  rw [hshape, replaceSubjectScan_cons_nomatch p c _ (by rw [hci]; simp), hcn,
    replaceSubjectScan_copy_run p cs
      (fun x hx => hnt x (by rw [hcontent]; exact List.mem_cons_of_mem c hx)) hterm R]
  unfold renderL
  rw [hcontent]
  simp [List.append_assoc]

theorem replaceSubjectScan_line_match (p : Str) {ln : HLine} (hwf : lineWF ln)
    (hm : ciStarts ("subject:".data) ln.content = true) (R : Str) :
    replaceSubjectScan p true (renderL ln ++ R) =
      ("Subject: ".data ++ p ++ optWs (ln.content.drop 8)) ++ ln.term ++
        replaceSubjectScan p true R := by
  obtain ⟨hne, hnt, hterm⟩ := hwf
  obtain ⟨c, cs, hcontent⟩ := List.exists_cons_of_ne_nil hne
  have hpat : ∀ x ∈ ("subject:".data : Str), isTermChar x = false := by decide
  have hshape : renderL ln ++ R = c :: (cs ++ (ln.term ++ R)) := by
    unfold renderL
    rw [hcontent]
    simp [List.append_assoc]
  have hci : ciStarts ("subject:".data) (c :: (cs ++ (ln.term ++ R))) = true := by
    have h1 := ciStarts_append_term hpat ln.content hterm R
    rw [show c :: (cs ++ (ln.term ++ R)) = ln.content ++ ln.term ++ R from by
      rw [hcontent]; simp [List.append_assoc], h1]
    exact hm
  have hple : 8 ≤ ln.content.length := by
    have h8 : ("subject:".data : Str).length = 8 := by decide
    have := ciStarts_true_le hm
    omega
  have hdrop : (c :: (cs ++ (ln.term ++ R))).drop 8 =
      ln.content.drop 8 ++ (ln.term ++ R) := by
    rw [show c :: (cs ++ (ln.term ++ R)) = ln.content ++ (ln.term ++ R) from by
      rw [hcontent]; simp]
    exact List.drop_append_of_le_length hple
  have hAfter : optWs ((c :: (cs ++ (ln.term ++ R))).drop 8) =
      optWs (ln.content.drop 8) ++ (ln.term ++ R) := by
    rw [hdrop]
    match hY : ln.content.drop 8 with
    | [] =>
      rw [List.nil_append, optWs_term hterm]
      rfl
    | y :: ys =>
      rw [optWs_append_cons]
  have hsub : ∀ x ∈ optWs (ln.content.drop 8), isTermChar x = false :=
    fun x hx => hnt x (List.drop_subset _ _ (optWs_subset _ x hx))
  have htake : takeRun (optWs ((c :: (cs ++ (ln.term ++ R))).drop 8)) =
      optWs (ln.content.drop 8) := by
    rw [hAfter, takeRun_append hsub]
    have h0 : takeRun (ln.term ++ R) = [] := by
      rcases hterm with h | h <;> rw [h] <;> rfl
    rw [h0, List.append_nil]
  have hdr : dropRun (optWs ((c :: (cs ++ (ln.term ++ R))).drop 8)) =
      ln.term ++ R := by
    rw [hAfter, dropRun_append hsub]
    rcases hterm with h | h <;> rw [h] <;> rfl
  rw [hshape, replaceSubjectScan_cons_match p c _ hci, htake, hdr,
    replaceSubjectScan_copy_term p hterm R]
  simp [List.append_assoc]

theorem replaceSubjectScan_structured (p : Str) :
    ∀ ls : List HLine, (∀ ln ∈ ls, lineWF ln) →
      replaceSubjectScan p true (renderLs ls) = renderLs (ls.map (subjLine p)) := by
  intro ls
  induction ls with
  | nil => intro h2; rfl
  | cons ln rest ih =>
    intro hwf
    have hwl := hwf ln (List.mem_cons_self ln rest)
    have hrest := fun x hx => hwf x (List.mem_cons_of_mem ln hx)
    rw [renderLs_cons, List.map_cons, renderLs_cons]
    cases hm : ciStarts ("subject:".data) ln.content with
    | false =>
      rw [replaceSubjectScan_line_nomatch p hwl hm, ih hrest]
      have hsl : subjLine p ln = ln := by
        unfold subjLine
        rw [if_neg (by rw [hm]; simp)]
      rw [hsl]
    | true =>
      rw [replaceSubjectScan_line_match p hwl hm, ih hrest]
      have hsl : subjLine p ln =
          ⟨"Subject: ".data ++ p ++ optWs (ln.content.drop 8), ln.term⟩ := by
        unfold subjLine
        rw [if_pos hm]
      rw [hsl]
      unfold renderL
      simp [List.append_assoc]

theorem ciStarts_append_right {pat Y : Str} (h : ciStarts pat Y = true) (X : Str) :
    ciStarts pat (Y ++ X) = true := by
  induction pat generalizing Y with
  | nil => rfl
  | cons p ps ih =>
    match Y with
    | [] => simp [ciStarts] at h
    | c :: cs =>
      have h2 : (p == lowerChar c && ciStarts ps cs) = true := h
      rw [Bool.and_eq_true] at h2
      rw [List.cons_append]
      show (p == lowerChar c && ciStarts ps (cs ++ X)) = true
      rw [ih h2.2, h2.1]
      rfl

theorem optWs_space (l : Str) : optWs (' ' :: l) = l := by
  simp [optWs]

theorem subject_out_drop (p X : Str) :
    (("Subject: ".data ++ p) ++ X).drop 8 = ' ' :: (p ++ X) := by
  have h9 : ("Subject: ".data : Str) = "Subject:".data ++ [' '] := by decide
  rw [h9, List.append_assoc, List.append_assoc,
    show (8 : Nat) = ("Subject:".data : Str).length from by decide,
    List.drop_left]
  rfl

theorem subjLine_twice (p : Str) (ln : HLine) :
    subjLine p (subjLine p ln) = subjLine (p ++ p) ln := by
  by_cases hm : ciStarts ("subject:".data) ln.content = true
  · have h1 : subjLine p ln =
        ⟨"Subject: ".data ++ p ++ optWs (ln.content.drop 8), ln.term⟩ := by
      unfold subjLine
      rw [if_pos hm]
    have h2 : subjLine (p ++ p) ln =
        ⟨"Subject: ".data ++ (p ++ p) ++ optWs (ln.content.drop 8), ln.term⟩ := by
      unfold subjLine
      rw [if_pos hm]
    have hci2 : ciStarts ("subject:".data)
        ("Subject: ".data ++ p ++ optWs (ln.content.drop 8)) = true := by
      rw [List.append_assoc]
      exact ciStarts_append_right (by decide) _
    have h3 : subjLine p
        (⟨"Subject: ".data ++ p ++ optWs (ln.content.drop 8), ln.term⟩ : HLine) =
        ⟨"Subject: ".data ++ p ++ (p ++ optWs (ln.content.drop 8)), ln.term⟩ := by
      show (if ciStarts ("subject:".data)
          ("Subject: ".data ++ p ++ optWs (ln.content.drop 8)) then
        (⟨"Subject: ".data ++ p ++
          optWs (("Subject: ".data ++ p ++ optWs (ln.content.drop 8)).drop 8),
          ln.term⟩ : HLine)
        else ⟨"Subject: ".data ++ p ++ optWs (ln.content.drop 8), ln.term⟩) = _
      rw [if_pos hci2, subject_out_drop p (optWs (ln.content.drop 8)), optWs_space]
    rw [h1, h3, h2]
    congr 1
    show "Subject: ".data ++ p ++ (p ++ optWs (ln.content.drop 8)) =
      "Subject: ".data ++ (p ++ p) ++ optWs (ln.content.drop 8)
    simp [List.append_assoc]
  · have hm' : ¬ciStarts ("subject:".data) ln.content = true := hm
    have h1 : subjLine p ln = ln := by
      unfold subjLine
      rw [if_neg hm']
    have h2 : subjLine (p ++ p) ln = ln := by
      unfold subjLine
      rw [if_neg hm']
    rw [h1, h1, h2]

theorem subjLine_WF {p : Str} (hpt : ∀ c ∈ p, isTermChar c = false) {ln : HLine}
    (h : lineWF ln) : lineWF (subjLine p ln) := by
  obtain ⟨hne, hnt, ht⟩ := h
  by_cases hm : ciStarts ("subject:".data) ln.content = true
  · have h1 : subjLine p ln =
        ⟨"Subject: ".data ++ p ++ optWs (ln.content.drop 8), ln.term⟩ := by
      unfold subjLine
      rw [if_pos hm]
    rw [h1]
    refine ⟨?_, ?_, ht⟩
    · have h9 : ("Subject: ".data : Str) = 'S' :: "ubject: ".data := by decide
      intro he
      rw [h9] at he
      simp at he
    · intro c hc
      rcases List.mem_append.mp hc with hc1 | hc2
      · rcases List.mem_append.mp hc1 with hs | hp
        · exact (by decide : ∀ x ∈ ("Subject: ".data : Str), isTermChar x = false) c hs
        · exact hpt c hp
      · exact hnt c (List.drop_subset _ _ (optWs_subset _ c hc2))
  · have h1 : subjLine p ln = ln := by
      unfold subjLine
      rw [if_neg hm]
    rw [h1]
    exact ⟨hne, hnt, ht⟩

/-- C9: with a non-empty configured subject prefix, the subject step
prepends the prefix to every `Subject:` header line of a well-formed
rendered header (rebuilding the line as `"Subject: " + prefix + value`);
applying the step twice yields the two prefixes concatenated (the
rewrite is not idempotent); and with an empty configured prefix the step
changes nothing. -/
theorem subjectPrefix_behavior (cfg : Config) (p : Str)
    (hcfg : cfg.subjectPrefix = p) (hpne : p ≠ [])
    (hpt : ∀ c ∈ p, isTermChar c = false)
    (ls : List HLine) (hls : ∀ ln ∈ ls, lineWF ln) :
    subjectStep cfg (renderLs ls) = renderLs (ls.map (subjLine p)) ∧
    subjectStep cfg (subjectStep cfg (renderLs ls)) =
      renderLs (ls.map (subjLine (p ++ p))) ∧
    (∀ cfg0 : Config, cfg0.subjectPrefix = [] → ∀ h0 : Str, subjectStep cfg0 h0 = h0) := by
  have hstep : ∀ h0, subjectStep cfg h0 = replaceSubjectScan p true h0 := by
    intro h0
    unfold subjectStep
    rw [hcfg, if_pos hpne]
  have h1 : subjectStep cfg (renderLs ls) = renderLs (ls.map (subjLine p)) := by
    rw [hstep]
    exact replaceSubjectScan_structured p ls hls
  refine ⟨h1, ?_, ?_⟩
  · rw [h1, hstep]
    rw [replaceSubjectScan_structured p (ls.map (subjLine p))
      (by
        intro x hx
        obtain ⟨y, hy, rfl⟩ := List.mem_map.mp hx
        exact subjLine_WF hpt (hls y hy))]
    have hcomp : subjLine p ∘ subjLine p = subjLine (p ++ p) :=
      funext (subjLine_twice p)
    rw [List.map_map, hcomp]
  · intro cfg0 h0eq h0
    unfold subjectStep
    rw [h0eq]
    simp

/-- C9 witness: the subject-prefix behaviour evaluated at the prefix
`"[fwd] "` on the single header line `Subject: hi`. -/
theorem subjectPrefix_behavior_witness :
    subjectStep ⟨[], "[fwd] ".data, [], true, []⟩
        (renderLs [⟨"Subject: hi".data, ['\n']⟩]) =
      renderLs ([⟨"Subject: hi".data, ['\n']⟩].map (subjLine ("[fwd] ".data))) ∧
    subjectStep ⟨[], "[fwd] ".data, [], true, []⟩
        (subjectStep ⟨[], "[fwd] ".data, [], true, []⟩
          (renderLs [⟨"Subject: hi".data, ['\n']⟩])) =
      renderLs ([⟨"Subject: hi".data, ['\n']⟩].map
        (subjLine ("[fwd] ".data ++ "[fwd] ".data))) ∧
    (∀ cfg0 : Config, cfg0.subjectPrefix = [] →
      ∀ h0 : Str, subjectStep cfg0 h0 = h0) :=
  subjectPrefix_behavior ⟨[], "[fwd] ".data, [], true, []⟩ ("[fwd] ".data) rfl
    (by decide) (by decide) [⟨"Subject: hi".data, ['\n']⟩] (by decide)

/-! ## Line starts of structured header text (towards C8) -/

theorem lineStartsAfter_nonNl :
    ∀ {X : Str}, (∀ c ∈ X, c ≠ '\n') → ∀ (Y : Str),
      lineStartsAfter (X ++ Y) = lineStartsAfter Y := by
  intro X
  induction X with
  | nil => intro h Y; rfl
  | cons c cs ih =>
    intro h Y
    rw [List.cons_append]
    show (if c = '\n' then (cs ++ Y) :: lineStartsAfter (cs ++ Y)
      else lineStartsAfter (cs ++ Y)) = lineStartsAfter Y
    rw [if_neg (h c (List.mem_cons_self c cs)),
      ih (fun x hx => h x (List.mem_cons_of_mem c hx)) Y]

theorem lineStartsAfter_renderL {ln : HLine} (hwf : lineWF ln) (Y : Str) :
    lineStartsAfter (renderL ln ++ Y) = Y :: lineStartsAfter Y := by
  obtain ⟨-, hnt, hterm⟩ := hwf
  have hcontNl : ∀ c ∈ ln.content, c ≠ '\n' := by
    intro c hc
    have h2 := hnt c hc
    simp only [isTermChar, Bool.or_eq_false_iff, beq_eq_false_iff_ne, ne_eq] at h2
    exact h2.1
  rw [show renderL ln ++ Y = ln.content ++ (ln.term ++ Y) from by
    unfold renderL; simp [List.append_assoc],
    lineStartsAfter_nonNl hcontNl]
  rcases hterm with h | h <;> rw [h]
  · show (if ('\n' : Char) = '\n' then Y :: lineStartsAfter Y
      else lineStartsAfter Y) = Y :: lineStartsAfter Y
    rw [if_pos rfl]
  · show lineStartsAfter ('\r' :: ('\n' :: Y)) = Y :: lineStartsAfter Y
    show (if ('\r' : Char) = '\n' then ('\n' :: Y) :: lineStartsAfter ('\n' :: Y)
      else lineStartsAfter ('\n' :: Y)) = Y :: lineStartsAfter Y
    rw [if_neg (by decide)]
    show (if ('\n' : Char) = '\n' then Y :: lineStartsAfter Y
      else lineStartsAfter Y) = Y :: lineStartsAfter Y
    rw [if_pos rfl]

theorem lineStarts_renderL_append {ln : HLine} (hwf : lineWF ln) (Y : Str) :
    lineStarts (renderL ln ++ Y) = (renderL ln ++ Y) :: lineStarts Y := by
  unfold lineStarts
  rw [lineStartsAfter_renderL hwf Y]

theorem ciStarts_renderL_append {pat : Str}
    (hpat : ∀ c ∈ pat, isTermChar c = false) {ln : HLine} (hwf : lineWF ln) (Y : Str) :
    ciStarts pat (renderL ln ++ Y) = ciStarts pat ln.content := by
  rw [show renderL ln ++ Y = ln.content ++ ln.term ++ Y from by
    unfold renderL; simp [List.append_assoc]]
  exact ciStarts_append_term hpat ln.content hwf.2.2 Y

theorem ciStarts_false_of_startsWs {pat : Str} {c0 : Char} {ps : Str}
    (hpat : pat = c0 :: ps) (hc0 : jsWs c0 = false) {l : Str}
    (hl : startsWs l = true) : ciStarts pat l = false := by
  match l with
  | [] => simp [startsWs] at hl
  | c :: cs =>
    have hc : jsWs c = true := by simpa [startsWs] using hl
    rw [hpat]
    exact ciStarts_false_of_ws_head hc0 hc

theorem hasReplyTo_structured :
    ∀ ls : List HLine, (∀ ln ∈ ls, lineWF ln) →
      hasReplyTo (renderLs ls) =
        ls.any (fun ln => ciStarts ("reply-to:".data) ln.content) := by
  intro ls
  induction ls with
  | nil => intro h; decide
  | cons ln rest ih =>
    intro hwf
    have hwl := hwf ln (List.mem_cons_self ln rest)
    have hrest := fun x hx => hwf x (List.mem_cons_of_mem ln hx)
    rw [renderLs_cons]
    show ((renderL ln ++ renderLs rest) ::
      lineStartsAfter (renderL ln ++ renderLs rest)).any
        (ciStarts ("reply-to:".data)) = _
    rw [lineStartsAfter_renderL hwl]
    simp only [List.any_cons]
    rw [ciStarts_renderL_append (by decide) hwl]
    show (ciStarts ("reply-to:".data) ln.content || hasReplyTo (renderLs rest)) = _
    rw [ih hrest]

theorem countReplyTo_structured :
    ∀ ls : List HLine, (∀ ln ∈ ls, lineWF ln) →
      countReplyTo (renderLs ls) =
        (ls.filter (fun ln => ciStarts ("reply-to:".data) ln.content)).length := by
  intro ls
  induction ls with
  | nil => intro h; decide
  | cons ln rest ih =>
    intro hwf
    have hwl := hwf ln (List.mem_cons_self ln rest)
    have hrest := fun x hx => hwf x (List.mem_cons_of_mem ln hx)
    rw [renderLs_cons]
    show (((renderL ln ++ renderLs rest) ::
      lineStartsAfter (renderL ln ++ renderLs rest)).filter
        (ciStarts ("reply-to:".data))).length = _
    rw [lineStartsAfter_renderL hwl]
    rw [List.filter_cons]
    rw [ciStarts_renderL_append (by decide) hwl]
    cases hm : ciStarts ("reply-to:".data) ln.content with
    | false =>
      simp only [Bool.false_eq_true, if_false]
      show countReplyTo (renderLs rest) = _
      rw [ih hrest, List.filter_cons]
      simp [hm]
    | true =>
      simp only [if_true]
      simp only [List.length_cons]
      show countReplyTo (renderLs rest) + 1 = _
      rw [ih hrest, List.filter_cons]
      simp [hm]

theorem extrFromAt_none {l : Str} (h : ciStarts ("from:".data) l = false) :
    extrFromAt l = none := by
  unfold extrFromAt
  rw [if_neg (by rw [h]; simp)]

theorem findSome_extrFromAt_skip :
    ∀ ps : List HLine,
      (∀ ln ∈ ps, lineWF ln ∧ ciStarts ("from:".data) ln.content = false) →
      ∀ Y : Str,
        (lineStarts (renderLs ps ++ Y)).findSome? extrFromAt =
          (lineStarts Y).findSome? extrFromAt := by
  intro ps
  induction ps with
  | nil => intro h Y; rfl
  | cons ln rest ih =>
    intro hwf Y
    obtain ⟨hwl, hm⟩ := hwf ln (List.mem_cons_self ln rest)
    have hrest := fun x hx => hwf x (List.mem_cons_of_mem ln hx)
    rw [renderLs_cons, List.append_assoc,
      lineStarts_renderL_append hwl (renderLs rest ++ Y)]
    have hnone : extrFromAt (renderL ln ++ (renderLs rest ++ Y)) = none := by
      apply extrFromAt_none
      rw [ciStarts_renderL_append (by decide) hwl]
      exact hm
    rw [List.findSome?_cons, hnone]
    exact ih hrest Y

/-! ## The From extraction on structured input (towards C8) -/

theorem extrIters_succ (tail : Str → Option (Str × Str)) (m1 : Str) (i : Nat) :
    extrIters tail m1 (i + 1) =
      match tail (dropRun (m1.drop (i + 1))) with
      | some (cons, rest) =>
        some (m1.take (i + 1) ++ takeRun (m1.drop (i + 1)) ++ cons, rest)
      | none => extrIters tail m1 i := rfl

theorem extrIters_congr {t1 t2 : Str → Option (Str × Str)} {m1 : Str}
    (h : ∀ x : Str, x.length ≤ m1.length → t1 x = t2 x) :
    ∀ i : Nat, extrIters t1 m1 i = extrIters t2 m1 i := by
  intro i
  induction i with
  | zero => rfl
  | succ j ih =>
    rw [extrIters_succ, extrIters_succ, ih,
      h (dropRun (m1.drop (j + 1))) (by
        have h1 := dropRun_length_le (m1.drop (j + 1))
        simp only [List.length_drop] at h1
        omega)]

theorem extrTailF_succ (fuel : Nat) (l : Str) :
    extrTailF (fuel + 1) l =
      match termAt l with
      | none => none
      | some (t, m1) =>
        match extrIters (fun x => extrTailF fuel x) m1 (wsRun m1).length with
        | some (cons, rest) => some (t ++ cons, rest)
        | none => some (t, m1) := rfl

theorem extrTailF_fuel : ∀ f1 f2 : Nat, ∀ l : Str, l.length < f1 → l.length < f2 →
    extrTailF f1 l = extrTailF f2 l := by
  intro f1
  induction f1 with
  | zero => intro f2 l h1 h2; omega
  | succ f ih =>
    intro f2 l h1 h2
    match f2 with
    | 0 => omega
    | g + 1 =>
      rw [extrTailF_succ, extrTailF_succ]
      cases ht : termAt l with
      | none => rfl
      | some p =>
        obtain ⟨t, m1⟩ := p
        have hm1 := termAt_length_lt ht
        have hcongr : extrIters (fun x => extrTailF f x) m1 (wsRun m1).length =
            extrIters (fun x => extrTailF g x) m1 (wsRun m1).length :=
          extrIters_congr (fun x hx => ih g x (by omega) (by omega)) _
        show (match extrIters (fun x => extrTailF f x) m1 (wsRun m1).length with
          | some (cons, rest) => some (t ++ cons, rest)
          | none => some (t, m1)) =
          (match extrIters (fun x => extrTailF g x) m1 (wsRun m1).length with
          | some (cons, rest) => some (t ++ cons, rest)
          | none => some (t, m1))
        rw [hcongr]

theorem extrTail_term_only {T : Str} (hT : goodTerm T) {m1 : Str}
    (hm : startsWs m1 = false) : extrTail (T ++ m1) = some (T, m1) := by
  unfold extrTail
  rw [extrTailF_succ, termAt_goodTerm hT m1]
  show (match extrIters (fun x => extrTailF (T ++ m1).length x) m1
      (wsRun m1).length with
    | some (cons, rest) => some (T ++ cons, rest)
    | none => some (T, m1)) = some (T, m1)
  rw [wsRun_eq_nil_of_startsWs_false hm]
  rfl

theorem extrTail_structured :
    ∀ (conts : List HLine),
      (∀ ln ∈ conts, lineWF ln ∧ startsWs ln.content = true ∧
        ∃ c ∈ ln.content, jsWs c = false) →
      ∀ {T : Str}, goodTerm T → ∀ (R : Str), startsWs R = false →
        extrTail (T ++ (renderLs conts ++ R)) = some (T ++ renderLs conts, R) := by
  intro conts
  induction conts with
  | nil =>
    intro h T hT R hR
    rw [show renderLs ([] : List HLine) ++ R = R from by simp [renderLs]]
    rw [extrTail_term_only hT hR]
    simp [renderLs]
  | cons c1 rest ih =>
    intro hwf T hT R hR
    obtain ⟨hwl, hws, hnws⟩ := hwf c1 (List.mem_cons_self c1 rest)
    have hrest := fun x hx => hwf x (List.mem_cons_of_mem c1 hx)
    obtain ⟨hne, hnt, hterm⟩ := hwl
    have hLHS : T ++ (renderLs (c1 :: rest) ++ R) =
        T ++ (renderL c1 ++ (renderLs rest ++ R)) := by
      rw [renderLs_cons, List.append_assoc]
    have hRHS : T ++ renderLs (c1 :: rest) = T ++ (renderL c1 ++ renderLs rest) := by
      rw [renderLs_cons]
    rw [hLHS, hRHS]
    have hl := renderL_eq c1 (renderLs rest ++ R)
    have hwsl : wsRun (renderL c1 ++ (renderLs rest ++ R)) = wsRun c1.content := by
      rw [hl]
      exact wsRun_append_of_nonws hnws _
    have hk1 : 1 ≤ (wsRun c1.content).length := by
      obtain ⟨c, cs, hcontent⟩ := List.exists_cons_of_ne_nil hne
      have hc : jsWs c = true := by
        rw [hcontent] at hws
        simpa [startsWs] using hws
      rw [hcontent, wsRun_def, List.takeWhile_cons]
      simp [hc]
    obtain ⟨j, hj⟩ : ∃ j, (wsRun c1.content).length = j + 1 :=
      ⟨(wsRun c1.content).length - 1, by omega⟩
    have hkle : (wsRun c1.content).length ≤ c1.content.length := wsRun_length_le _
    have hdropk : (renderL c1 ++ (renderLs rest ++ R)).drop (j + 1) =
        c1.content.dropWhile jsWs ++ (c1.term ++ (renderLs rest ++ R)) := by
      rw [hl, ← hj, List.drop_append_of_le_length hkle]
      congr 1
      exact drop_takeWhile_length jsWs c1.content
    have hrestnt : ∀ c ∈ c1.content.dropWhile jsWs, isTermChar c = false :=
      fun c hc => hnt c (List.dropWhile_sublist _ |>.subset hc)
    have hdr : dropRun ((renderL c1 ++ (renderLs rest ++ R)).drop (j + 1)) =
        c1.term ++ (renderLs rest ++ R) := by
      rw [hdropk, dropRun_append hrestnt]
      rcases hterm with h | h <;> rw [h] <;> rfl
    have htr : takeRun ((renderL c1 ++ (renderLs rest ++ R)).drop (j + 1)) =
        c1.content.dropWhile jsWs := by
      rw [hdropk, takeRun_append hrestnt]
      have h0 : takeRun (c1.term ++ (renderLs rest ++ R)) = [] := by
        rcases hterm with h | h <;> rw [h] <;> rfl
      rw [h0, List.append_nil]
    have htake : (renderL c1 ++ (renderLs rest ++ R)).take (j + 1) =
        wsRun c1.content := by
      rw [hl, ← hj, List.take_append_of_le_length hkle]
      exact take_wsRun_length c1.content
    have hT1 : 1 ≤ T.length := by rcases hT with h | h <;> simp [h]
    have hc1len : 1 ≤ c1.content.length := by
      obtain ⟨c, cs, hcontent⟩ := List.exists_cons_of_ne_nil hne
      rw [hcontent]
      simp
    have hlt : (c1.term ++ (renderLs rest ++ R)).length <
        (T ++ (renderL c1 ++ (renderLs rest ++ R))).length := by
      unfold renderL
      simp only [List.length_append]
      omega
    have hrec : extrTailF (T ++ (renderL c1 ++ (renderLs rest ++ R))).length
        (c1.term ++ (renderLs rest ++ R)) = some (c1.term ++ renderLs rest, R) := by
      rw [extrTailF_fuel _ ((c1.term ++ (renderLs rest ++ R)).length + 1) _ hlt
        (Nat.lt_succ_self _)]
      exact ih hrest hterm R hR
    have hiters : extrIters
        (fun x => extrTailF (T ++ (renderL c1 ++ (renderLs rest ++ R))).length x)
        (renderL c1 ++ (renderLs rest ++ R)) (j + 1) =
        some (renderL c1 ++ renderLs rest, R) := by
      rw [extrIters_succ]
      show (match extrTailF (T ++ (renderL c1 ++ (renderLs rest ++ R))).length
          (dropRun ((renderL c1 ++ (renderLs rest ++ R)).drop (j + 1))) with
        | some (cons, r2) =>
          some ((renderL c1 ++ (renderLs rest ++ R)).take (j + 1) ++
            takeRun ((renderL c1 ++ (renderLs rest ++ R)).drop (j + 1)) ++ cons, r2)
        | none => extrIters
            (fun x => extrTailF (T ++ (renderL c1 ++ (renderLs rest ++ R))).length x)
            (renderL c1 ++ (renderLs rest ++ R)) j) =
        some (renderL c1 ++ renderLs rest, R)
      rw [hdr, hrec]
      show some ((renderL c1 ++ (renderLs rest ++ R)).take (j + 1) ++
        takeRun ((renderL c1 ++ (renderLs rest ++ R)).drop (j + 1)) ++
        (c1.term ++ renderLs rest), R) = some (renderL c1 ++ renderLs rest, R)
      rw [htake, htr]
      have h2 : wsRun c1.content ++ c1.content.dropWhile jsWs = c1.content := by
        rw [wsRun_def]
        exact List.takeWhile_append_dropWhile jsWs c1.content
      show some ((wsRun c1.content ++ c1.content.dropWhile jsWs) ++
        (c1.term ++ renderLs rest), R) = some (renderL c1 ++ renderLs rest, R)
      rw [h2]
      unfold renderL
      rw [List.append_assoc]
    unfold extrTail
    rw [extrTailF_succ,
      termAt_goodTerm hT (renderL c1 ++ (renderLs rest ++ R))]
    show (match extrIters
        (fun x => extrTailF (T ++ (renderL c1 ++ (renderLs rest ++ R))).length x)
        (renderL c1 ++ (renderLs rest ++ R))
        (wsRun (renderL c1 ++ (renderLs rest ++ R))).length with
      | some (cons, r2) => some (T ++ cons, r2)
      | none => some (T, renderL c1 ++ (renderLs rest ++ R))) =
      some (T ++ (renderL c1 ++ renderLs rest), R)
    rw [hwsl, hj, hiters]

theorem extrFromAt_structured {b : HBlock} (hwf : blockWF b)
    (hm : ciStarts ("from:".data) b.first.content = true) {R : Str}
    (hR : startsWs R = false) :
    extrFromAt (renderB b ++ R) =
      some (optWs (b.first.content.drop 5) ++ (b.first.term ++ renderLs b.conts)) := by
  obtain ⟨⟨hne, hnt, hterm⟩, -, -, hcs⟩ := hwf
  have hshape : renderB b ++ R =
      b.first.content ++ (b.first.term ++ (renderLs b.conts ++ R)) := by
    unfold renderB renderL
    simp [List.append_assoc]
  have hci : ciStarts ("from:".data) (renderB b ++ R) = true := by
    rw [hshape,
      show b.first.content ++ (b.first.term ++ (renderLs b.conts ++ R)) =
        b.first.content ++ b.first.term ++ (renderLs b.conts ++ R) from by
        simp [List.append_assoc],
      ciStarts_append_term (by decide) b.first.content hterm (renderLs b.conts ++ R)]
    exact hm
  have hple : 5 ≤ b.first.content.length := by
    have h5 : ("from:".data : Str).length = 5 := by decide
    have := ciStarts_true_le hm
    omega
  have hdrop : (renderB b ++ R).drop 5 =
      b.first.content.drop 5 ++ (b.first.term ++ (renderLs b.conts ++ R)) := by
    rw [hshape]
    exact List.drop_append_of_le_length hple
  have hAfter : optWs ((renderB b ++ R).drop 5) =
      optWs (b.first.content.drop 5) ++ (b.first.term ++ (renderLs b.conts ++ R)) := by
    rw [hdrop]
    match hY : b.first.content.drop 5 with
    | [] =>
      rw [List.nil_append, optWs_term hterm]
      rfl
    | y :: ys => rw [optWs_append_cons]
  have hsub : ∀ x ∈ optWs (b.first.content.drop 5), isTermChar x = false :=
    fun x hx => hnt x (List.drop_subset _ _ (optWs_subset _ x hx))
  have htake : takeRun (optWs ((renderB b ++ R).drop 5)) =
      optWs (b.first.content.drop 5) := by
    rw [hAfter, takeRun_append hsub]
    have h0 : takeRun (b.first.term ++ (renderLs b.conts ++ R)) = [] := by
      rcases hterm with h | h <;> rw [h] <;> rfl
    rw [h0, List.append_nil]
  have hdr : dropRun (optWs ((renderB b ++ R).drop 5)) =
      b.first.term ++ (renderLs b.conts ++ R) := by
    rw [hAfter, dropRun_append hsub]
    rcases hterm with h | h <;> rw [h] <;> rfl
  have hext : extrTail (dropRun (optWs ((renderB b ++ R).drop 5))) =
      some (b.first.term ++ renderLs b.conts, R) := by
    rw [hdr]
    exact extrTail_structured b.conts hcs hterm R hR
  unfold extrFromAt
  rw [if_pos hci]
  show (match extrTail (dropRun (optWs ((renderB b ++ R).drop 5))) with
    | some (cons, _) => some (takeRun (optWs ((renderB b ++ R).drop 5)) ++ cons)
    | none => none) =
    some (optWs (b.first.content.drop 5) ++ (b.first.term ++ renderLs b.conts))
  rw [hext]
  show some (takeRun (optWs ((renderB b ++ R).drop 5)) ++
    (b.first.term ++ renderLs b.conts)) = _
  rw [htake]

/-! ## Reply-To injection on structured input (C8) -/

theorem renderLs_append (A B : List HLine) :
    renderLs (A ++ B) = renderLs A ++ renderLs B := by
  simp [renderLs]

theorem renderB_lines (b : HBlock) : renderB b = renderLs (b.first :: b.conts) := by
  rw [renderLs_cons]
  rfl

theorem renderBs_bind (bs : List HBlock) :
    renderBs bs = renderLs (bs.bind (fun b => b.first :: b.conts)) := by
  induction bs with
  | nil => rfl
  | cons b rest ih =>
    rw [renderBs_cons]
    show renderB b ++ renderBs rest =
      renderLs ((b.first :: b.conts) ++ rest.bind (fun b => b.first :: b.conts))
    rw [renderLs_append, ← renderB_lines, ih]

theorem renderBs_append (A B : List HBlock) :
    renderBs (A ++ B) = renderBs A ++ renderBs B := by
  simp [renderBs]

/-- C8: on a well-formed rendered header whose blocks carry no
`Reply-To:` header and that contains a `From:` block `b0` (the blocks
before it not matching `from:`), the injection step appends exactly the
rendered Reply-To block — `"Reply-To: "`, the From value verbatim (rest
of the From line, its terminator, its folded continuation lines) — and
the result contains exactly one `Reply-To:` header; and on any header
that already has a `Reply-To:` header the step changes nothing, so no
second one is ever added. -/
theorem replyToInjection (pre post : List HBlock) (b0 : HBlock)
    (hwf : ∀ b ∈ pre ++ b0 :: post, blockWF b)
    (hpre : ∀ b ∈ pre, ciStarts ("from:".data) b.first.content = false)
    (hb0 : ciStarts ("from:".data) b0.first.content = true)
    (hnrt : ∀ b ∈ pre ++ b0 :: post,
      ciStarts ("reply-to:".data) b.first.content = false) :
    injectReplyTo (renderBs (pre ++ b0 :: post)) =
      renderBs (pre ++ b0 :: post) ++ renderB (replyToBlock b0) ∧
    countReplyTo (injectReplyTo (renderBs (pre ++ b0 :: post))) = 1 ∧
    (∀ h0 : Str, hasReplyTo h0 = true → injectReplyTo h0 = h0) := by
  have hb0wf : blockWF b0 := hwf b0 (List.mem_append_right _ (List.mem_cons_self _ _))
  have hAllLines : ∀ ln ∈ (pre ++ b0 :: post).bind (fun b => b.first :: b.conts),
      lineWF ln ∧ ciStarts ("reply-to:".data) ln.content = false := by
    intro ln hln
    rw [List.mem_bind] at hln
    obtain ⟨b, hb, hmem⟩ := hln
    obtain ⟨hf, hfw, -, hconts⟩ := hwf b hb
    rcases List.mem_cons.mp hmem with rfl | hc
    · exact ⟨hf, hnrt b hb⟩
    · obtain ⟨hlw, hws, -⟩ := hconts ln hc
      exact ⟨hlw, ciStarts_false_of_startsWs
        (by decide : ("reply-to:".data : Str) = 'r' :: "eply-to:".data)
        (by decide) hws⟩
  have hLSwf : ∀ ln ∈ (pre ++ b0 :: post).bind (fun b => b.first :: b.conts),
      lineWF ln := fun ln hln => (hAllLines ln hln).1
  have hnoRT : hasReplyTo (renderBs (pre ++ b0 :: post)) = false := by
    rw [renderBs_bind, hasReplyTo_structured _ hLSwf, List.any_eq_false]
    intro ln hln
    rw [(hAllLines ln hln).2]
    simp
  have hpost : startsWs (renderBs post) = false :=
    startsWs_renderBs post
      (fun b hb => hwf b (List.mem_append_right _ (List.mem_cons_of_mem _ hb)))
  have hfromVal : extractFrom (renderBs (pre ++ b0 :: post)) =
      optWs (b0.first.content.drop 5) ++ (b0.first.term ++ renderLs b0.conts) := by
    unfold extractFrom
    have hsplit : renderBs (pre ++ b0 :: post) =
        renderLs (pre.bind (fun b => b.first :: b.conts)) ++
          (renderB b0 ++ renderBs post) := by
      rw [renderBs_append, renderBs_cons, renderBs_bind pre]
    rw [hsplit,
      findSome_extrFromAt_skip (pre.bind (fun b => b.first :: b.conts))
        (by
          intro ln hln
          rw [List.mem_bind] at hln
          obtain ⟨b, hb, hmem⟩ := hln
          obtain ⟨hf, hfw, -, hconts⟩ := hwf b (List.mem_append_left _ hb)
          rcases List.mem_cons.mp hmem with rfl | hc
          · exact ⟨hf, hpre b hb⟩
          · obtain ⟨hlw, hws, -⟩ := hconts ln hc
            exact ⟨hlw, ciStarts_false_of_startsWs
              (by decide : ("from:".data : Str) = 'f' :: "rom:".data)
              (by decide) hws⟩)
        (renderB b0 ++ renderBs post)]
    have hsome : extrFromAt (renderB b0 ++ renderBs post) =
        some (optWs (b0.first.content.drop 5) ++
          (b0.first.term ++ renderLs b0.conts)) :=
      extrFromAt_structured hb0wf hb0 hpost
    show (((renderB b0 ++ renderBs post) ::
      lineStartsAfter (renderB b0 ++ renderBs post)).findSome? extrFromAt).getD [] = _
    rw [List.findSome?_cons, hsome]
    rfl
  have hfromne : optWs (b0.first.content.drop 5) ++
      (b0.first.term ++ renderLs b0.conts) ≠ [] := by
    obtain ⟨⟨-, -, hterm⟩, -, -, -⟩ := hb0wf
    intro he
    rcases List.append_eq_nil.mp he with ⟨-, h2⟩
    rcases List.append_eq_nil.mp h2 with ⟨h3, -⟩
    rcases hterm with h | h <;> rw [h] at h3 <;> simp at h3
  have hmain : injectReplyTo (renderBs (pre ++ b0 :: post)) =
      renderBs (pre ++ b0 :: post) ++ renderB (replyToBlock b0) := by
    show (if hasReplyTo (renderBs (pre ++ b0 :: post)) = true then
        renderBs (pre ++ b0 :: post)
      else if extractFrom (renderBs (pre ++ b0 :: post)) = [] then
        renderBs (pre ++ b0 :: post)
      else renderBs (pre ++ b0 :: post) ++ "Reply-To: ".data ++
        extractFrom (renderBs (pre ++ b0 :: post))) = _
    rw [if_neg (by rw [hnoRT]; simp), hfromVal, if_neg hfromne]
    show renderBs (pre ++ b0 :: post) ++ "Reply-To: ".data ++
      (optWs (b0.first.content.drop 5) ++ (b0.first.term ++ renderLs b0.conts)) =
      renderBs (pre ++ b0 :: post) ++
        (("Reply-To: ".data ++ optWs (b0.first.content.drop 5)) ++ b0.first.term ++
          renderLs b0.conts)
    simp [List.append_assoc]
  refine ⟨hmain, ?_, ?_⟩
  · rw [hmain]
    have hrtWF : lineWF (replyToBlock b0).first := by
      obtain ⟨⟨hne0, hnt0, hterm0⟩, -, -, -⟩ := hb0wf
      refine ⟨?_, ?_, hterm0⟩
      · have h9 : ("Reply-To: ".data : Str) = 'R' :: "eply-To: ".data := by decide
        show "Reply-To: ".data ++ optWs (b0.first.content.drop 5) ≠ []
        rw [h9]
        intro he
        simp at he
      · intro c hc
        rcases List.mem_append.mp hc with hs | hc2
        · exact (by decide : ∀ x ∈ ("Reply-To: ".data : Str), isTermChar x = false) c hs
        · exact hnt0 c (List.drop_subset _ _ (optWs_subset _ c hc2))
    have hstep : renderBs (pre ++ b0 :: post) ++ renderB (replyToBlock b0) =
        renderLs ((pre ++ b0 :: post).bind (fun b => b.first :: b.conts) ++
          ((replyToBlock b0).first :: (replyToBlock b0).conts)) := by
      rw [renderLs_append, ← renderBs_bind, ← renderB_lines]
    rw [hstep, countReplyTo_structured _ (by
      intro ln hln
      rcases List.mem_append.mp hln with h1 | h2
      · exact hLSwf ln h1
      · rcases List.mem_cons.mp h2 with rfl | hc
        · exact hrtWF
        · exact ((hb0wf.2.2.2) ln hc).1)]
    rw [List.filter_append]
    have hfilter1 : (((pre ++ b0 :: post).bind (fun b => b.first :: b.conts)).filter
        (fun ln => ciStarts ("reply-to:".data) ln.content)) = [] := by
      rw [List.filter_eq_nil]
      intro ln hln
      rw [(hAllLines ln hln).2]
      simp
    have hrtci : ciStarts ("reply-to:".data) ((replyToBlock b0).first.content) = true := by
      show ciStarts ("reply-to:".data)
        ("Reply-To: ".data ++ optWs (b0.first.content.drop 5)) = true
      exact ciStarts_append_right (by decide) _
    have hfilter2 : (((replyToBlock b0).conts).filter
        (fun ln => ciStarts ("reply-to:".data) ln.content)) = [] := by
      rw [List.filter_eq_nil]
      intro ln hln
      have hln2 : ln ∈ b0.conts := hln
      obtain ⟨-, hws, -⟩ := (hb0wf.2.2.2) ln hln2
      rw [ciStarts_false_of_startsWs
        (by decide : ("reply-to:".data : Str) = 'r' :: "eply-to:".data)
        (by decide) hws]
      simp
    rw [hfilter1, List.filter_cons]
    simp only [hrtci, if_true]
    rw [hfilter2]
    rfl
  · intro h0 hrt
    show (if hasReplyTo h0 = true then h0
      else if extractFrom h0 = [] then h0
      else h0 ++ "Reply-To: ".data ++ extractFrom h0) = h0
    rw [if_pos hrt]

/-- C8 witness: the injection evaluated on the three-block header
`X: y` / folded `From: John <j@x>` (continuation `" (ceo)"`) / `Z: w`:
the Reply-To block is appended and the result counts exactly one
`Reply-To:` header. -/
theorem replyToInjection_witness :
    injectReplyTo (renderBs [⟨⟨"X: y".data, ['\r', '\n']⟩, []⟩,
        ⟨⟨"From: John <j@x>".data, ['\r', '\n']⟩, [⟨" (ceo)".data, ['\r', '\n']⟩]⟩,
        ⟨⟨"Z: w".data, ['\r', '\n']⟩, []⟩]) =
      renderBs [⟨⟨"X: y".data, ['\r', '\n']⟩, []⟩,
        ⟨⟨"From: John <j@x>".data, ['\r', '\n']⟩, [⟨" (ceo)".data, ['\r', '\n']⟩]⟩,
        ⟨⟨"Z: w".data, ['\r', '\n']⟩, []⟩] ++
        renderB (replyToBlock
          ⟨⟨"From: John <j@x>".data, ['\r', '\n']⟩, [⟨" (ceo)".data, ['\r', '\n']⟩]⟩) ∧
    countReplyTo (injectReplyTo (renderBs [⟨⟨"X: y".data, ['\r', '\n']⟩, []⟩,
        ⟨⟨"From: John <j@x>".data, ['\r', '\n']⟩, [⟨" (ceo)".data, ['\r', '\n']⟩]⟩,
        ⟨⟨"Z: w".data, ['\r', '\n']⟩, []⟩])) = 1 ∧
    (∀ h0 : Str, hasReplyTo h0 = true → injectReplyTo h0 = h0) :=
  replyToInjection [⟨⟨"X: y".data, ['\r', '\n']⟩, []⟩]
    [⟨⟨"Z: w".data, ['\r', '\n']⟩, []⟩]
    ⟨⟨"From: John <j@x>".data, ['\r', '\n']⟩, [⟨" (ceo)".data, ['\r', '\n']⟩]⟩
    (by decide) (by decide) (by decide) (by decide)

/-! ## C3: the split on input without a blank line -/

theorem termAt_renderLs_none :
    ∀ ls : List HLine, (∀ ln ∈ ls, lineWF ln) →
      ∀ r ∈ lineStarts (renderLs ls), termAt r = none := by
  intro ls
  induction ls with
  | nil =>
    intro h r hr
    rcases List.mem_cons.mp hr with rfl | h2
    · rfl
    · simp [lineStartsAfter, renderLs] at h2
  | cons ln rest ih =>
    intro hwf r hr
    have hwl := hwf ln (List.mem_cons_self ln rest)
    have hrest := fun x hx => hwf x (List.mem_cons_of_mem ln hx)
    rw [renderLs_cons, lineStarts_renderL_append hwl (renderLs rest)] at hr
    rcases List.mem_cons.mp hr with rfl | h2
    · obtain ⟨hne, hnt, -⟩ := hwl
      obtain ⟨c, cs, hcontent⟩ := List.exists_cons_of_ne_nil hne
      rw [show renderL ln ++ renderLs rest = c :: (cs ++ ln.term ++ renderLs rest) from by
        unfold renderL; rw [hcontent]; simp [List.append_assoc]]
      exact termAt_none_of_nonTerm
        (hnt c (by rw [hcontent]; exact List.mem_cons_self c cs)) _
    · exact ih hrest r h2

theorem splitCand_renderLs_none (ls : List HLine) (hwf : ∀ ln ∈ ls, lineWF ln) :
    splitCand (renderLs ls) = none := by
  unfold splitCand
  exact splitCandF_none _ _ (termAt_renderLs_none ls hwf)

theorem afterTerm_append_nonterm :
    ∀ {X : Str}, (∀ c ∈ X, isTermChar c = false) → ∀ (l : Str),
      afterTerm (X ++ l) = afterTerm l := by
  intro X
  induction X with
  | nil => intro h l; rfl
  | cons c cs ih =>
    intro h l
    have hc := h c (List.mem_cons_self c cs)
    simp only [isTermChar, Bool.or_eq_false_iff, beq_eq_false_iff_ne, ne_eq] at hc
    rw [List.cons_append]
    show (if c = '\n' ∨ c = '\r' then some (cs ++ l) else afterTerm (cs ++ l)) =
      afterTerm l
    rw [if_neg (fun hor => hor.elim hc.1 hc.2),
      ih (fun x hx => h x (List.mem_cons_of_mem c hx)) l]

theorem splitScanF_some {l : Str} {res : Str × Str × Str}
    (h : splitCand l = some res) :
    ∀ f : Nat, 1 ≤ f → splitScanF f l = some res := by
  intro f hf
  match f with
  | 0 => omega
  | g + 1 =>
    rw [splitScanF]
    simp only [h]

/-- With the corrected multiline-`^` positions a `"\r\n"` terminator is
itself a boundary: on well-formed header lines with no blank line, the
leftmost match of the split regex sits between the first `'\r'` and its
`'\n'`, with an empty group 1 (so the header falls back to the whole
input) and group 2 covering the remainder from that `'\n'` on. -/
theorem splitMessage_crlf_no_blank (ln : HLine) (rest : List HLine)
    (hwl : lineWF ln) (hterm : ln.term = ['\r', '\n'])
    (hrest : ∀ x ∈ rest, lineWF x) :
    splitMessage (renderLs (ln :: rest)) =
      (renderLs (ln :: rest), '\n' :: takeThroughLastWs (renderLs rest)) := by
  have hcand0 : splitCand (renderLs (ln :: rest)) = none :=
    splitCand_renderLs_none (ln :: rest) (by
      intro x hx
      rcases List.mem_cons.mp hx with rfl | h2
      · exact hwl
      · exact hrest x h2)
  have hshape : renderLs (ln :: rest) =
      ln.content ++ ('\r' :: '\n' :: renderLs rest) := by
    rw [renderLs_cons]
    unfold renderL
    rw [hterm]
    simp [List.append_assoc]
  have hafter : afterTerm (renderLs (ln :: rest)) = some ('\n' :: renderLs rest) := by
    rw [hshape, afterTerm_append_nonterm hwl.2.1 ('\r' :: '\n' :: renderLs rest)]
    show (if ('\r' : Char) = '\n' ∨ ('\r' : Char) = '\r' then
      some ('\n' :: renderLs rest) else afterTerm ('\n' :: renderLs rest)) =
      some ('\n' :: renderLs rest)
    rw [if_pos (Or.inr rfl)]
  have hcand1 : splitCand ('\n' :: renderLs rest) =
      some ([], ['\n'], renderLs rest) := by
    unfold splitCand
    rw [show ('\n' :: renderLs rest : Str).length + 1 =
      (renderLs rest).length + 1 + 1 from by simp, splitCandF,
      show termAt ('\n' :: renderLs rest) = some (['\n'], renderLs rest) from
        termAt_goodTerm (Or.inl rfl) (renderLs rest)]
  have hlen1 : 1 ≤ (renderLs (ln :: rest)).length := by
    rw [hshape]
    simp only [List.length_append, List.length_cons]
    omega
  have hscan : splitScan (renderLs (ln :: rest)) =
      some ([], ['\n'], renderLs rest) := by
    unfold splitScan
    rw [splitScanF]
    simp only [hcand0, hafter]
    exact splitScanF_some hcand1 _ hlen1
  unfold splitMessage
  rw [hscan]
  show (if ([] : Str) = [] then renderLs (ln :: rest) else [],
    ['\n'] ++ takeThroughLastWs (renderLs rest)) =
    (renderLs (ln :: rest), '\n' :: takeThroughLastWs (renderLs rest))
  rw [if_pos rfl]
  rfl

/-- C3 (amended): splitting a well-formed message — non-empty header
lines, a blank line, then the body — the rewrite reassembles the
rewritten header, the blank line, and the input body truncated after its
last whitespace character; the body is byte-for-byte identical exactly
when it ends in whitespace (e.g. with a final newline).  The regex's
multiline `^` also matches between the `'\r'` and `'\n'` of a CRLF
pair, so a `"\r\n"` terminator anywhere is itself a boundary: on
CRLF-terminated header lines with no blank line the match's empty first
group makes the header fall back to the whole input and the second
group duplicates everything after the first `'\r'` as a non-empty body.
Only when the regex finds no boundary at any `^` position (CR positions
included) is the whole input treated as header with an empty body. -/
theorem body_preservation (cfg : Config) (orig : Option Str)
    (ls : List HLine) (bt body : Str)
    (hne : ls ≠ []) (hwf : ∀ ln ∈ ls, lineWF ln) (hbt : goodTerm bt) :
    processMessage cfg orig (renderLs ls ++ bt ++ body) =
      processHeader cfg orig (renderLs ls) ++ bt ++ takeThroughLastWs body ∧
    (∀ c, body.getLast? = some c → jsWs c = true →
      processMessage cfg orig (renderLs ls ++ bt ++ body) =
        processHeader cfg orig (renderLs ls) ++ bt ++ body) ∧
    (∀ x : Str, hasBlankLine x = false →
      processMessage cfg orig x = processHeader cfg orig x) ∧
    (∀ (ln2 : HLine) (rest2 : List HLine), lineWF ln2 → ln2.term = ['\r', '\n'] →
      (∀ x ∈ rest2, lineWF x) →
      processMessage cfg orig (renderLs (ln2 :: rest2)) =
        processHeader cfg orig (renderLs (ln2 :: rest2)) ++
          '\n' :: takeThroughLastWs (renderLs rest2)) := by
  have hsplit := splitMessage_structured ls bt body hne hwf hbt
  refine ⟨?_, ?_, ?_, ?_⟩
  · unfold processMessage
    rw [hsplit]
    simp [List.append_assoc]
  · intro c hlast hc
    unfold processMessage
    rw [hsplit]
    rw [takeThroughLastWs_of_ws_end hlast hc]
    simp [List.append_assoc]
  · intro x hx
    unfold processMessage
    rw [splitMessage_no_blank hx]
    simp
  · intro ln2 rest2 hwl2 hterm2 hrest2
    unfold processMessage
    rw [splitMessage_crlf_no_blank ln2 rest2 hwl2 hterm2 hrest2]

/-- C3 witness: the reassembly equation evaluated on a one-line header,
a CRLF blank line and the body `"Body text"` (truncated to `"Body "`),
together with the whitespace-ended, no-boundary and CRLF-no-blank-line
clauses. -/
theorem body_preservation_witness :
    processMessage cfgPlain none
      (renderLs [⟨"A: x".data, ['\r', '\n']⟩] ++ ['\r', '\n'] ++ "Body text".data) =
      processHeader cfgPlain none (renderLs [⟨"A: x".data, ['\r', '\n']⟩]) ++
        ['\r', '\n'] ++ takeThroughLastWs ("Body text".data) ∧
    (∀ c, ("Body text".data : Str).getLast? = some c → jsWs c = true →
      processMessage cfgPlain none
        (renderLs [⟨"A: x".data, ['\r', '\n']⟩] ++ ['\r', '\n'] ++ "Body text".data) =
        processHeader cfgPlain none (renderLs [⟨"A: x".data, ['\r', '\n']⟩]) ++
          ['\r', '\n'] ++ "Body text".data) ∧
    (∀ x : Str, hasBlankLine x = false →
      processMessage cfgPlain none x = processHeader cfgPlain none x) ∧
    (∀ (ln2 : HLine) (rest2 : List HLine), lineWF ln2 → ln2.term = ['\r', '\n'] →
      (∀ x ∈ rest2, lineWF x) →
      processMessage cfgPlain none (renderLs (ln2 :: rest2)) =
        processHeader cfgPlain none (renderLs (ln2 :: rest2)) ++
          '\n' :: takeThroughLastWs (renderLs rest2)) :=
  body_preservation cfgPlain none [⟨"A: x".data, ['\r', '\n']⟩] ['\r', '\n']
    ("Body text".data) (by simp) (by decide) (by decide)

/-! ## C3 and C4: counterexamples on the header rewrite -/

/-- C3 (counterexample): on `"A: x\r\n\r\nBody text"` the rewrite leaves
the header untouched, yet the reassembled output ends in `"Body "`: the
split regex's body group `(?:.*\s+)*` reaches only the last whitespace
character, so the trailing `"text"` is dropped — the body after the
blank-line boundary is not byte-for-byte identical. -/
theorem body_not_identical_cex :
    processMessage cfgPlain none ("A: x\r\n\r\nBody text".data) =
      ("A: x\r\n\r\nBody ".data) ∧
    ("A: x\r\n\r\nBody ".data : Str) ≠ ("A: x\r\n\r\nBody text".data : Str) :=
  ⟨by decide, by decide⟩

/-- C4 (amended): what the strip stage actually does on well-formed
rendered input: the three first-line removals (`Return-Path:`,
`Sender:`, `Message-ID:`) act line-by-line — a matching line is removed
alone, so its folded continuation lines survive as orphans — while the
DKIM removal alone is multi-line-aware, removing a matching header
together with all its folded continuation lines. -/
theorem stripHeaders_behavior
    (ls : List HLine) (hls : ∀ ln ∈ ls, lineWF ln)
    (bs : List HBlock) (hbs : ∀ b ∈ bs, blockWF b) :
    removeLineScan ("return-path:".data) true (renderLs ls) =
      (ls.map (removeLineL ("return-path:".data))).join ∧
    removeLineScan ("sender:".data) true (renderLs ls) =
      (ls.map (removeLineL ("sender:".data))).join ∧
    removeLineScan ("message-id:".data) true (renderLs ls) =
      (ls.map (removeLineL ("message-id:".data))).join ∧
    removeDkimScan true (renderBs bs) = (bs.map removeDkimB).join :=
  ⟨removeLineScan_structured _ (by decide) ls hls,
   removeLineScan_structured _ (by decide) ls hls,
   removeLineScan_structured _ (by decide) ls hls,
   removeDkimScan_structured bs hbs⟩

/-- C4 witness: the per-line/per-block characterization evaluated on a
folded `Return-Path:` header and a folded `DKIM-Signature:` header. -/
theorem stripHeaders_behavior_witness :
    removeLineScan ("return-path:".data) true
      (renderLs [⟨"Return-Path: <b@x>".data, ['\r', '\n']⟩,
        ⟨" bounce".data, ['\r', '\n']⟩]) =
      ([⟨"Return-Path: <b@x>".data, ['\r', '\n']⟩,
        ⟨" bounce".data, ['\r', '\n']⟩].map
          (removeLineL ("return-path:".data))).join ∧
    removeLineScan ("sender:".data) true
      (renderLs [⟨"Return-Path: <b@x>".data, ['\r', '\n']⟩,
        ⟨" bounce".data, ['\r', '\n']⟩]) =
      ([⟨"Return-Path: <b@x>".data, ['\r', '\n']⟩,
        ⟨" bounce".data, ['\r', '\n']⟩].map
          (removeLineL ("sender:".data))).join ∧
    removeLineScan ("message-id:".data) true
      (renderLs [⟨"Return-Path: <b@x>".data, ['\r', '\n']⟩,
        ⟨" bounce".data, ['\r', '\n']⟩]) =
      ([⟨"Return-Path: <b@x>".data, ['\r', '\n']⟩,
        ⟨" bounce".data, ['\r', '\n']⟩].map
          (removeLineL ("message-id:".data))).join ∧
    removeDkimScan true
      (renderBs [⟨⟨"DKIM-Signature: v=1;".data, ['\r', '\n']⟩,
        [⟨" a=rsa;".data, ['\r', '\n']⟩]⟩,
        ⟨⟨"X: y".data, ['\r', '\n']⟩, []⟩]) =
      ([⟨⟨"DKIM-Signature: v=1;".data, ['\r', '\n']⟩,
        [⟨" a=rsa;".data, ['\r', '\n']⟩]⟩,
        ⟨⟨"X: y".data, ['\r', '\n']⟩, []⟩].map removeDkimB).join :=
  stripHeaders_behavior
    [⟨"Return-Path: <b@x>".data, ['\r', '\n']⟩, ⟨" bounce".data, ['\r', '\n']⟩]
    (by decide)
    [⟨⟨"DKIM-Signature: v=1;".data, ['\r', '\n']⟩,
      [⟨" a=rsa;".data, ['\r', '\n']⟩]⟩,
      ⟨⟨"X: y".data, ['\r', '\n']⟩, []⟩]
    (by decide)

/-- C4 (counterexample): a folded `Return-Path:` header: the removal
consumes only the header's first line and leaves the orphaned folded
continuation `" bounce"` behind (while the DKIM removal, by contrast,
does consume its continuation line). -/
theorem returnPath_orphan_cex :
    processMessage cfgPlain none
      (("Return-Path: <b@x>\r\n bounce\r\n" ++
        "DKIM-Signature: v=1;\r\n a=rsa;\r\nX: y\r\n\r\nB\r\n").data) =
      (" bounce\r\nX: y\r\n\r\nB\r\n".data) := by
  decide


/-! ## C5: plus addressing -/

theorem plusSpan_through (t rest : Str) (ht1 : '@' ∉ t)
    (ht2 : ∀ c ∈ t, isTermChar c = false) :
    plusSpan (t ++ '@' :: rest) = some rest := by
  induction t with
  | nil => simp [plusSpan]
  | cons c cs ih =>
    have hc1 : c ≠ '@' := fun he => ht1 (he ▸ List.mem_cons_self c cs)
    have hc2 : isTermChar c = false := ht2 c (List.mem_cons_self c cs)
    rw [List.cons_append, plusSpan]
    simp only [hc2, beq_iff_eq, hc1, if_false, Bool.false_eq_true]
    exact ih (fun hm => ht1 (List.mem_cons_of_mem c hm))
      (fun x hx => ht2 x (List.mem_cons_of_mem c hx))

theorem replacePlus_skip (u rest : Str) (hu : '+' ∉ u) :
    replacePlus (u ++ rest) = u ++ replacePlus rest := by
  induction u with
  | nil => rfl
  | cons c cs ih =>
    have hc : c ≠ '+' := fun he => hu (he ▸ List.mem_cons_self c cs)
    rw [List.cons_append, replacePlus]
    simp only [beq_iff_eq, hc, if_false, Bool.false_eq_true]
    rw [ih (fun hm => hu (List.mem_cons_of_mem c hm))]
    rfl

/-- C5: with plus addressing enabled, an address `user+tag@domain` is
looked up under the normalized key `user@domain` — so it matches a rule
for `user@domain` — while the value recorded as the chosen original
recipient is the unnormalized original address `user+tag@domain`. -/
theorem plusAddressing (cfg : Config) (u t d : Str)
    (hplus : cfg.allowPlusSign = true)
    (hu1 : '+' ∉ u)
    (hlu : lowerStr u = u) (hlt : lowerStr t = t) (hld : lowerStr d = d)
    (ht1 : '@' ∉ t) (ht2 : ∀ c ∈ t, isTermChar c = false)
    (hkey : hasKey cfg.forwardMapping (u ++ '@' :: d) = true) :
    (resolveAll cfg [u ++ '+' :: (t ++ '@' :: d)]).newRecipients =
      getKey cfg.forwardMapping (u ++ '@' :: d) ∧
    (resolveAll cfg [u ++ '+' :: (t ++ '@' :: d)]).originalRecipient =
      some (u ++ '+' :: (t ++ '@' :: d)) := by
  have hlow : lowerStr (u ++ '+' :: (t ++ '@' :: d)) = u ++ '+' :: (t ++ '@' :: d) := by
    unfold lowerStr at *
    rw [List.map_append, List.map_cons, List.map_append, List.map_cons]
    rw [hlu, hlt, hld]
    norm_num [show lowerChar '+' = '+' from by decide,
      show lowerChar '@' = '@' from by decide]
  have hnorm : normKey cfg (u ++ '+' :: (t ++ '@' :: d)) = u ++ '@' :: d := by
    unfold normKey
    rw [hlow, if_pos hplus, replacePlus_skip u ('+' :: (t ++ '@' :: d)) hu1,
      replacePlus]
    simp only [beq_self_eq_true, if_true]
    rw [plusSpan_through t d ht1 ht2]
  have hlook : lookupDest cfg.forwardMapping (normKey cfg (u ++ '+' :: (t ++ '@' :: d))) =
      some (getKey cfg.forwardMapping (u ++ '@' :: d)) := by
    rw [hnorm]
    unfold lookupDest
    simp [hkey]
  unfold resolveAll
  rw [List.foldl_cons, List.foldl_nil]
  unfold resolveStep
  rw [hlook]
  exact ⟨rfl, rfl⟩

/-- C5 (witness): resolving `user+x@domain` against a rule for
`user@domain` with plus addressing on: the rule's destinations are used
and `user+x@domain` itself is recorded. -/
theorem plusAddressing_witness :
    (resolveAll cfgPlus ["user+x@domain".data]).newRecipients = ["dest@y".data] ∧
    (resolveAll cfgPlus ["user+x@domain".data]).originalRecipient =
      some ("user+x@domain".data) := by
  have h := plusAddressing cfgPlus ("user".data) ("x".data) ("domain".data)
    (by decide) (by decide) (by decide) (by decide) (by decide) (by decide)
    (by decide) (by decide)
  have he : ("user".data ++ '+' :: ("x".data ++ '@' :: "domain".data)) =
      ("user+x@domain".data) := by decide
  rw [he] at h
  have hg : getKey cfgPlus.forwardMapping ("user".data ++ '@' :: "domain".data) =
      ["dest@y".data] := by decide
  rw [hg] at h
  exact h

/-! ## C2: lookup precedence -/

theorem lastAtIdx_drop_ne {key : Str} {pos : Nat} (h : lastAtIdx key = some pos) :
    key.drop pos ≠ [] := by
  unfold lastAtIdx at h
  cases hf : key.reverse.findIdx? (fun c => c == '@') with
  | none => rw [hf] at h; simp at h
  | some i =>
    rw [hf] at h
    simp at h
    subst h
    have hne : key ≠ [] := by
      intro he
      subst he
      simp [List.findIdx?] at hf
    have hlen : 0 < key.length := List.length_pos.mpr hne
    intro hd
    rw [List.drop_eq_nil_iff_le] at hd
    omega

/-- C2: for every key and rule table (whose keys do not include the
invalid empty pattern), the lookup chain of `transformRecipients` tries
the four lookups in strict precedence order, stopping at the first key
present — it agrees with `lookupSpec`, the order as the specification
words it — and a full-address rule, when present, is always the one
chosen. -/
theorem lookup_precedence (m : RuleTable) (key : Str)
    (hnil : hasKey m [] = false) :
    (hasKey m key = true → lookupDest m key = some (getKey m key)) ∧
    lookupDest m key = lookupSpec m key := by
  constructor
  · intro h
    unfold lookupDest
    simp [h]
  · unfold lookupDest lookupSpec userPart domainPart
    by_cases h : hasKey m key = true
    · simp [h]
    · simp only [Bool.not_eq_true] at h
      simp only [h]
      cases hidx : lastAtIdx key with
      | none =>
        simp only [Option.map_none]
        by_cases hk : key = []
        · subst hk
          simp [hnil]
        · simp [hk, h]
      | some pos =>
        simp only [Option.map_some]
        have hdom := lastAtIdx_drop_ne hidx
        simp only [ne_eq, hdom, not_false_eq_true, true_and]
        by_cases hu : key.take pos = []
        · simp [hu, hnil]
        · simp [hu]

/-- C2 (witness): on a concrete table carrying all four overlapping rule
tiers for `a@b`, the full-address rule is chosen and the code's chain
agrees with the specification's precedence order. -/
theorem lookup_precedence_witness :
    hasKey ruleW [] = false ∧
    lookupDest ruleW ("a@b".data) = some ([("full@y".data)]) ∧
    lookupDest ruleW ("a@b".data) = lookupSpec ruleW ("a@b".data) := by
  refine ⟨by decide, ?_, (lookup_precedence ruleW ("a@b".data) (by decide)).2⟩
  have h := (lookup_precedence ruleW ("a@b".data) (by decide)).1 (by decide)
  rw [h]
  decide

/-- C1 (counterexample): with recipients `["a@x", "b@x"]` both matching,
the recorded chosen original recipient is `"b@x"` — the last match — even
though `"a@x"` (the first, also matching) differs from it; the claim's
"first recipient that produced any match" is false on the code. -/
theorem originalRecipient_not_first_cex :
    matchesRule cfgTwo ("a@x".data) = true ∧
    matchesRule cfgTwo ("b@x".data) = true ∧
    (resolveAll cfgTwo ["a@x".data, "b@x".data]).originalRecipient =
      some ("b@x".data) ∧
    ("b@x".data : Str) ≠ ("a@x".data : Str) := by
  refine ⟨by decide, by decide, by decide, by decide⟩

end Fwd
